import Mathlib

/-!
Verification development for `score_inverse_problems/transforms/fourier.py`.

The file embeds the module shallowly in Lean:
* Python floats are embedded as exact rationals (`ℚ`) where the source only
  performs field operations, and as reals/complexes (`ℝ`, `ℂ`) where the
  source takes square roots or evaluates transcendental functions.
* Arrays are embedded as a flat list of entries together with a shape
  (row-major layout), mirroring the numpy/jax data model.
* The external collaborators (`jnp.fft.fftn`/`ifftn`, `interp.interpolate`,
  `interp.gridding`, `util.resize`, `util.prod`, `util._normalize_axes`)
  are not part of `src/`; they are taken as parameters or modelled from the
  spec, as indicated in the doc comment of each definition.
-/

namespace ScoreInv

/-! ### Python scalar semantics -/

/-- Python `int()` applied to a (float-valued) rational: truncation toward
zero, i.e. floor for non-negative values and ceiling for negative ones. -/
def pyIntTrunc (q : ℚ) : ℤ := if 0 ≤ q then ⌊q⌋ else ⌈q⌉

/-- Python slice `l[:-n]` for a natural `n` (note `l[:-0] = l[:0] = []`). -/
def sliceUpToNeg {α : Type} (l : List α) (n : ℕ) : List α :=
  if n = 0 then [] else l.take (l.length - n)

/-- Python slice `l[-n:]` for a natural `n` (note `l[-0:] = l[0:] = l`). -/
def sliceFromNeg {α : Type} (l : List α) (n : ℕ) : List α :=
  if n = 0 then l else l.drop (l.length - n)

/-- The radicand of the `beta` derivation in `nufft` / `nufft_adjoint`
(fourier.py lines 109 and 158): `((width / oversamp) * (oversamp - 0.5)) ** 2 - 0.8`,
computed exactly in rational arithmetic (the Python source computes it with
float operations on the literals `0.5` and `0.8`). -/
def radicand (width oversamp : ℚ) : ℚ :=
  ((width / oversamp) * (oversamp - 1/2))^2 - 4/5

/-- Python 3 semantics of `x ** 0.5` for a float `x`: for `0 ≤ x` this is the
real square root; for `x < 0` CPython does **not** raise — `float.__pow__`
falls back to complex exponentiation and returns the principal complex square
root `i * sqrt (-x)`.  No exception is raised in either case. -/
noncomputable def pyPowHalf (x : ℚ) : ℂ :=
  if 0 ≤ x then ((Real.sqrt x : ℝ) : ℂ) else Complex.I * ((Real.sqrt (-x) : ℝ) : ℂ)

/-- The value `np.pi * (radicand) ** 0.5` computed by lines 109/158 of the
source, under Python-3 float-power semantics. -/
noncomputable def betaVal (width oversamp : ℚ) : ℂ :=
  (Real.pi : ℂ) * pyPowHalf (radicand width oversamp)

/-- Error type used to state error-handling claims about the embedded code. -/
inductive PyError : Type
  | domainError
deriving DecidableEq

/-- The computation of `beta` inside `nufft` and `nufft_adjoint` as an
exception-aware computation: the Python expression
`np.pi * (((width / oversamp) * (oversamp - 0.5)) ** 2 - 0.8) ** 0.5`
never raises (see `pyPowHalf`); it always returns a value, which is complex
(non-real) exactly when the radicand is negative. -/
noncomputable def betaCompute (width oversamp : ℚ) : Except PyError ℂ :=
  Except.ok (betaVal width oversamp)

/-! ### `estimate_shape` (fourier.py lines 239-250) -/

/-- The list of `i`-th coordinates of every point of a coordinate array,
the array being flattened over its leading axes to a list of `d`-vectors. -/
def axisVals (coord : List (List ℚ)) (i : ℕ) : List ℚ :=
  coord.map (fun p => p.getD i 0)

/-- Maximum of a list of rationals, as computed by `np.max` on a non-empty
array (the `[]` case is junk: numpy raises on an empty array). -/
def listMax : List ℚ → ℚ
  | [] => 0
  | x :: xs => xs.foldl max x

/-- Minimum of a list of rationals (see `listMax`). -/
def listMin : List ℚ → ℚ
  | [] => 0
  | x :: xs => xs.foldl min x

/-- Function `estimate_shape` from the source: for each axis `i < ndim` it computes
`int(coord[..., i].max() - coord[..., i].min())` — Python `int()` of the
max-min range, i.e. truncation toward zero (`pyIntTrunc`), not a ceiling. -/
def estimate_shape (coord : List (List ℚ)) (ndim : ℕ) : List ℤ :=
  (List.range ndim).map
    (fun i => pyIntTrunc (listMax (axisVals coord i) - listMin (axisVals coord i)))

/-- Modelled from the spec: `estimate_shape` as the spec words it, returning
`ceil(max(coord[...,i]) - min(coord[...,i]))` per axis.  Kept only to be
compared against the source-derived `estimate_shape`. -/
def estimate_shape_spec (coord : List (List ℚ)) (ndim : ℕ) : List ℤ :=
  (List.range ndim).map
    (fun i => ⌈listMax (axisVals coord i) - listMin (axisVals coord i)⌉)

/-! ### `_get_oversamp_shape` (fourier.py lines 220-221) -/

/-- Function `_get_oversamp_shape` from the source:
`list(shape)[:-ndim] + [ceil(oversamp * i) for i in shape[-ndim:]]`.
`math.ceil` of the rational `oversamp * i` is `⌈oversamp * i⌉ : ℤ`; since
shapes are naturals and every call site has `oversamp > 0`, the value is
embedded into `ℕ` with `Int.toNat` (the identity on the non-negative
results produced at every call site). -/
def _get_oversamp_shape (shape : List ℕ) (ndim : ℕ) (oversamp : ℚ) : List ℕ :=
  sliceUpToNeg shape ndim ++
    (sliceFromNeg shape ndim).map (fun i : ℕ => (⌈oversamp * (i : ℚ)⌉).toNat)

/-! ### Flat row-major arrays -/

/-- An n-dimensional array: a shape and a flat list of entries in row-major
order (last axis fastest), the numpy/jax data model. -/
structure Arr (α : Type) where
  shape : List ℕ
  data : List α
deriving DecidableEq

/-- Well-formedness: the flat data holds exactly one entry per position. -/
def Arr.wf {α : Type} (x : Arr α) : Prop := x.data.length = x.shape.prod

/-- Row-major flattening of a multi-index. -/
def flattenIdx : List ℕ → List ℕ → ℕ
  | _ :: ss, i :: is => i * ss.prod + flattenIdx ss is
  | _, _ => 0

/-- Row-major unflattening of a linear position into a multi-index. -/
def unflattenIdx : List ℕ → ℕ → List ℕ
  | [], _ => []
  | _ :: ss, n => (n / ss.prod) :: unflattenIdx ss (n % ss.prod)

/-- A multi-index is valid for a shape when it has the same rank and each
component is below the corresponding axis length. -/
def validIdx : List ℕ → List ℕ → Bool
  | [], [] => true
  | s :: ss, i :: is => decide (i < s) && validIdx ss is
  | _, _ => false

/-- Build an array of the same shape whose entry at multi-index `v` is the
entry of `x` at multi-index `g v` — the generic index-shuffling primitive
used to model `np.fft.fftshift` / `np.fft.ifftshift`. -/
def arrMap {α : Type} [Zero α] (x : Arr α) (g : List ℕ → List ℕ) : Arr α :=
  ⟨x.shape, (List.range x.shape.prod).map
      (fun n => x.data.getD (flattenIdx x.shape (g (unflattenIdx x.shape n))) 0)⟩

/-- Modelled from the spec: `util._normalize_axes(axes, ndim)` of the missing
`transforms.util` module — `None` selects all `ndim` axes; otherwise the axes
are sorted and each (possibly negative) axis is reduced modulo `ndim`
(Python `%` on integers is `Int.emod`, non-negative for a positive modulus). -/
def normalizeAxes (axes : Option (List ℤ)) (ndim : ℕ) : List ℕ :=
  match axes with
  | none => List.range ndim
  | some l => (l.mergeSort (fun a b => a ≤ b)).map (fun a => (a % (ndim : ℤ)).toNat)

/-- Index map of a simultaneous modular per-axis shift starting at axis
counter `a`: on each selected axis the output entry at position `i` is read
from input position `(i + off s) % s`, `s` being the axis length. -/
def shiftIdxFrom (axes : List ℕ) (off : ℕ → ℕ) : ℕ → List ℕ → List ℕ → List ℕ
  | _, _, [] => []
  | _, [], is => is
  | a, s :: ss, i :: is =>
      (if a ∈ axes then (i + off s) % s else i) :: shiftIdxFrom axes off (a + 1) ss is

/-- Index map of a simultaneous per-axis shift over the whole shape. -/
def shiftIdxMap (shape : List ℕ) (axes : List ℕ) (off : ℕ → ℕ)
    (idx : List ℕ) : List ℕ :=
  shiftIdxFrom axes off 0 shape idx

/-- Modelled from the spec: `jnp.fft.fftshift` — rotates the zero-frequency
bin to the center of each selected axis, a simultaneous roll by `s / 2`
(output position `j` reads input position `(j + (s - s / 2)) % s`, i.e.
`(j - s / 2) mod s`). -/
def fftshift {α : Type} [Zero α] (x : Arr α) (axes : List ℕ) : Arr α :=
  arrMap x (shiftIdxMap x.shape axes (fun s => s - s / 2))

/-- Modelled from the spec: `jnp.fft.ifftshift` — the inverse rotation, a
simultaneous roll by `-(s / 2)`. -/
def ifftshift {α : Type} [Zero α] (x : Arr α) (axes : List ℕ) : Arr α :=
  arrMap x (shiftIdxMap x.shape axes (fun s => s / 2))

/-- Modelled from the spec: per-axis index bookkeeping of `util.resize` of
the missing `transforms.util` module (centered zero-pad when growing,
centered crop when shrinking): output position `j` on an axis of input
length `i` and output length `o` reads input position `j - oshift + ishift`
when `j` lies in the copied band, where `ishift = max((i - o) // 2, 0)` and
`oshift = max((o - i) // 2, 0)` (truncated ℕ subtraction realizes the
`max(·, 0)`). -/
def resizeIdx (i o j : ℕ) : Option ℕ :=
  if (o - i) / 2 ≤ j ∧ j < (o - i) / 2 + min i o then
    some (j - (o - i) / 2 + (i - o) / 2)
  else none

/-- Extension of `resizeIdx` to multi-indices of shapes of equal rank. -/
def resizeMap : List ℕ → List ℕ → List ℕ → Option (List ℕ)
  | [], [], [] => some []
  | i :: is, o :: os, j :: js =>
      match resizeIdx i o j, resizeMap is os js with
      | some k, some ks => some (k :: ks)
      | _, _ => none
  | _, _, _ => none

/-- Modelled from the spec: `util.resize` — centered zero-pad / crop of an
array to `oshape`; positions outside the copied band are zero. -/
def resize {α : Type} [Zero α] (x : Arr α) (oshape : List ℕ) : Arr α :=
  ⟨oshape, (List.range oshape.prod).map (fun n =>
      match resizeMap x.shape oshape (unflattenIdx oshape n) with
      | some v => x.data.getD (flattenIdx x.shape v) 0
      | none => 0)⟩

/-! ### The centered transforms `fft` / `ifft` (fourier.py lines 14-74, 185-210) -/

/-- Normalization mode passed through to the FFT engine (`norm=None` or
`norm="ortho"`). -/
inductive FftNorm : Type
  | std
  | ortho
deriving DecidableEq

/-- The numpy/jax dtypes relevant to the promotion logic of `fft`/`ifft`. -/
inductive Dtype : Type
  | float32
  | float64
  | complex64
  | complex128
deriving DecidableEq

/-- Whether a dtype is a complex floating dtype
(`np.issubdtype(·, jnp.complexfloating)`). -/
def Dtype.isComplex : Dtype → Bool
  | complex64 => true
  | complex128 => true
  | _ => false

/-- An array tagged with its dtype.  Entry values are embedded exactly, so
`astype` between complex precisions relabels the dtype and keeps the payload. -/
structure DArr (α : Type) where
  dtype : Dtype
  arr : Arr α
deriving DecidableEq

/-- Dtype cast: relabel (exact-value embedding of `astype`). -/
def DArr.astype {α : Type} (x : DArr α) (d : Dtype) : DArr α := ⟨d, x.arr⟩

/-- The external uniform FFT engine (`jnp.fft.fftn` / `jnp.fft.ifftn`), an
out-of-scope collaborator per the spec: each transform maps an array, an
optional output-size list `s`, an optional axis list and a normalization mode
to an array; `outDtype` is its dtype behaviour. -/
structure FFTEngine (α : Type) where
  fftn : Arr α → Option (List ℕ) → Option (List ℤ) → FftNorm → Arr α
  ifftn : Arr α → Option (List ℕ) → Option (List ℤ) → FftNorm → Arr α
  outDtype : Dtype → Dtype

/-- Function `_fftc` from the source (lines 185-196): resize to `oshape` (the input's
own shape when omitted), inverse shift, raw forward transform (no `s`),
forward shift — all over the normalized axes. -/
def _fftc {α : Type} [Zero α] (E : FFTEngine α) (input : Arr α)
    (oshape : Option (List ℕ)) (axes : Option (List ℤ)) (norm : FftNorm) : Arr α :=
  let ndim := input.shape.length
  let ax := normalizeAxes axes ndim
  let oshape' := oshape.getD input.shape
  let tmp := resize input oshape'
  let tmp := ifftshift tmp ax
  let tmp := E.fftn tmp none (some (ax.map (fun a : ℕ => (a : ℤ)))) norm
  fftshift tmp ax

/-- Function `_ifftc` from the source (lines 199-210): same as `_fftc` with the raw
inverse transform in the middle. -/
def _ifftc {α : Type} [Zero α] (E : FFTEngine α) (input : Arr α)
    (oshape : Option (List ℕ)) (axes : Option (List ℤ)) (norm : FftNorm) : Arr α :=
  let ndim := input.shape.length
  let ax := normalizeAxes axes ndim
  let oshape' := oshape.getD input.shape
  let tmp := resize input oshape'
  let tmp := ifftshift tmp ax
  let tmp := E.ifftn tmp none (some (ax.map (fun a : ℕ => (a : ℤ)))) norm
  fftshift tmp ax

/-- Function `fft` from the source (lines 14-42): promote a non-complex input to
`complex64`, apply the centered transform when `center` (default `True`) or
the raw `fftn` with `s = oshape` otherwise, and cast the output back to the
(promoted) input's dtype when they differ.  The dtype of the transform's
output is the engine's `outDtype` of its input dtype (the only
dtype-affecting step of `_fftc` is `fftn` itself). -/
def fft {α : Type} [Zero α] (E : FFTEngine α) (input : DArr α)
    (oshape : Option (List ℕ) := none) (axes : Option (List ℤ) := none)
    (center : Bool := true) (norm : FftNorm := .std) : DArr α :=
  let input := if input.dtype.isComplex then input else input.astype .complex64
  let output : DArr α :=
    if center then ⟨E.outDtype input.dtype, _fftc E input.arr oshape axes norm⟩
    else ⟨E.outDtype input.dtype, E.fftn input.arr oshape axes norm⟩
  if input.dtype.isComplex = true ∧ input.dtype ≠ output.dtype then
    output.astype input.dtype
  else output

/-- Function `ifft` from the source (lines 45-74): mirror of `fft` with `_ifftc` and
the raw `ifftn`. -/
def ifft {α : Type} [Zero α] (E : FFTEngine α) (input : DArr α)
    (oshape : Option (List ℕ) := none) (axes : Option (List ℤ) := none)
    (center : Bool := true) (norm : FftNorm := .std) : DArr α :=
  let input := if input.dtype.isComplex then input else input.astype .complex64
  let output : DArr α :=
    if center then ⟨E.outDtype input.dtype, _ifftc E input.arr oshape axes norm⟩
    else ⟨E.outDtype input.dtype, E.ifftn input.arr oshape axes norm⟩
  if input.dtype.isComplex = true ∧ input.dtype ≠ output.dtype then
    output.astype input.dtype
  else output

/-- The uncentered `fft` path as the spec words it: promote to complex, apply
the plain transform with output length parameter `s = oshape` over the given
axes, cast back to the promoted input's complex precision — no resize, no
index shift. -/
def fftUncenteredSpec {α : Type} (E : FFTEngine α) (x : DArr α)
    (oshape : Option (List ℕ)) (axes : Option (List ℤ)) (norm : FftNorm) : DArr α :=
  let p := if x.dtype.isComplex then x else x.astype .complex64
  ⟨p.dtype, E.fftn p.arr oshape axes norm⟩

/-- The uncentered `ifft` path as the spec words it (see `fftUncenteredSpec`). -/
def ifftUncenteredSpec {α : Type} (E : FFTEngine α) (x : DArr α)
    (oshape : Option (List ℕ)) (axes : Option (List ℤ)) (norm : FftNorm) : DArr α :=
  let p := if x.dtype.isComplex then x else x.astype .complex64
  ⟨p.dtype, E.ifftn p.arr oshape axes norm⟩

/-- A trivial instantiation of the external FFT engine (identity transforms),
used to instantiate hypothesis-carrying theorems on concrete inputs. -/
def idEngine : FFTEngine ℚ :=
  ⟨fun a _ _ _ => a, fun a _ _ _ => a, fun d => d⟩

/-! ### The NUFFT pipelines (fourier.py lines 77-182, 213-236) -/

/-- Modelled from the spec: `util.prod` of the missing `transforms.util`
module — the product of a list of (shape) integers. -/
def utilProd (l : List ℕ) : ℕ := l.prod

/-- Python `range(-ndim, 0)` as a list of integers. -/
def negRange (ndim : ℕ) : List ℤ :=
  (List.range ndim).map (fun k : ℕ => (k : ℤ) - (ndim : ℤ))

/-- Pointwise multiplication of every entry by a scalar: `output *= c` on an
immutable jax array rebinds `output` to the elementwise product. -/
noncomputable def smulArr (c : ℂ) (x : Arr ℂ) : Arr ℂ :=
  ⟨x.shape, x.data.map (fun v => v * c)⟩

/-- Pointwise division of every entry by a scalar (`output /= c`). -/
noncomputable def divArr (x : Arr ℂ) (c : ℂ) : Arr ℂ :=
  ⟨x.shape, x.data.map (fun v => v / c)⟩

/-- Function `_scale_coord` from the source (lines 213-217): rescale the trailing
coordinate axis — the entry at last-axis position `i` becomes
`c * scale_i + shift_i` with `scale_i = ceil(oversamp * n_i) / n_i` and
`shift_i = ceil(oversamp * n_i) // 2`, `n_i` ranging over the trailing
`ndim` entries of `shape`. -/
def _scale_coord (coord : Arr ℚ) (shape : List ℕ) (oversamp : ℚ) : Arr ℚ :=
  let ndim := coord.shape.getLastD 0
  let tail := sliceFromNeg shape ndim
  ⟨coord.shape, (List.range coord.shape.prod).map (fun n =>
      let i := (unflattenIdx coord.shape n).getLastD 0
      let ni := tail.getD i 1
      let g := (⌈oversamp * (ni : ℚ)⌉).toNat
      coord.data.getD n 0 * ((g : ℚ) / (ni : ℚ)) + ((g / 2 : ℕ) : ℚ))⟩

/-- The value `(beta ** 2 - (np.pi * width * (idx - i // 2) / os_i) ** 2) ** 0.5`
of `_apodize` (line 232) for an axis of current length `i`, evaluated in
complex arithmetic: the index array `idx` is created with the array's dtype
(line 229), so on complex data the whole expression, `** 0.5` included, is
complex (principal power). -/
noncomputable def apodS (i : ℕ) (oversamp width : ℚ) (beta : ℂ) (idx : ℕ) : ℂ :=
  (beta ^ 2 - ((Real.pi : ℂ) * (width : ℂ) * ((idx : ℂ) - ((i / 2 : ℕ) : ℂ))
      / (((⌈oversamp * (i : ℚ)⌉).toNat : ℕ) : ℂ)) ^ 2) ^ ((1 : ℂ) / 2)

/-- The apodization factor `apod / np.sinh(apod)` of `_apodize` (lines
232-233) at one index.  Division by zero yields the junk value `0` in this
exact embedding; `apodEntryNonFinite` records where the float code actually
divides by an exact zero (producing NaN/Inf). -/
noncomputable def apodEntry (i : ℕ) (oversamp width : ℚ) (beta : ℂ) (idx : ℕ) : ℂ :=
  apodS i oversamp width beta idx / Complex.sinh (apodS i oversamp width beta idx)

/-- The float evaluation of `apodEntry` produces a non-finite value (NaN or
Inf) exactly when its denominator `sinh apod` is exactly zero. -/
noncomputable def apodEntryNonFinite (i : ℕ) (oversamp width : ℚ) (beta : ℂ)
    (idx : ℕ) : Prop :=
  Complex.sinh (apodS i oversamp width beta idx) = 0

/-- The per-axis apodization window exactly as the spec words it (§4.3):
`sqrt(beta^2 - (π width (idx - i//2) / os_i)^2) / sinh(same)` in real
arithmetic, for a real shape parameter `beta`. -/
noncomputable def apodSpecEntry (i : ℕ) (oversamp width : ℚ) (beta : ℝ)
    (idx : ℕ) : ℝ :=
  let s := Real.sqrt (beta ^ 2 - (Real.pi * (width : ℝ)
      * ((idx : ℝ) - ((i / 2 : ℕ) : ℝ)) / (((⌈oversamp * (i : ℚ)⌉).toNat : ℕ) : ℝ)) ^ 2)
  s / Real.sinh s

/-- The (real) radicand of the apodization window for a real `beta`. -/
noncomputable def apodRadicand (i : ℕ) (oversamp width : ℚ) (beta : ℝ)
    (idx : ℕ) : ℝ :=
  beta ^ 2 - (Real.pi * (width : ℝ) * ((idx : ℝ) - ((i / 2 : ℕ) : ℝ))
      / (((⌈oversamp * (i : ℚ)⌉).toNat : ℕ) : ℝ)) ^ 2

/-- Multiply each entry of `x` by a per-axis factor `w` applied to that
entry's component along axis `a` — the broadcast
`output *= apod.reshape([i] + [1] * (-a - 1))` of line 234. -/
noncomputable def mulAxis (x : Arr ℂ) (a : ℕ) (w : ℕ → ℂ) : Arr ℂ :=
  ⟨x.shape, (List.range x.shape.prod).map (fun n =>
      x.data.getD n 0 * w ((unflattenIdx x.shape n).getD a 0))⟩

/-- Function `_apodize` from the source (lines 224-236): for each Python axis `a` in
`range(-ndim, 0)` (position `rank - ndim + k`), multiply by the apodization
window of that axis' current length.  Multiplication — never division — in
both the forward and the adjoint pipeline. -/
noncomputable def _apodize (input : Arr ℂ) (ndim : ℕ) (oversamp width : ℚ)
    (beta : ℂ) : Arr ℂ :=
  (List.range ndim).foldl (fun out k =>
      let a := out.shape.length - ndim + k
      let i := out.shape.getD a 0
      mulAxis out a (fun idx => apodEntry i oversamp width beta idx)) input

/-- The kernel name fixed at every interpolation/gridding call site of the
source (`kernel='kaiser_bessel'`). -/
def kaiserBessel : String :=
  "kaiser_bessel"

/-- The external interpolation collaborator of the spec, the missing
`transforms.interp` module: `interpolate grid coord kernel width param`
gathers grid values at non-uniform coordinates, `gridding input coord shape
kernel width param` is the adjoint scatter onto a grid of the given shape. -/
structure InterpEngine where
  interpolate : Arr ℂ → Arr ℚ → String → ℚ → ℂ → Arr ℂ
  gridding : Arr ℂ → Arr ℚ → List ℕ → String → ℚ → ℂ → Arr ℂ

/-- The payload (value) part of the centered `fft` call of the pipelines:
by `fft_complex_centered`, the dtype bookkeeping of `fft` never alters the
array payload, which is always `_fftc`. -/
def fftArr (E : FFTEngine ℂ) (x : Arr ℂ) (axes : List ℤ) : Arr ℂ :=
  _fftc E x none (some axes) .std

/-- The payload part of the centered `ifft` call of the pipelines. -/
def ifftArr (E : FFTEngine ℂ) (x : Arr ℂ) (axes : List ℤ) : Arr ℂ :=
  _ifftc E x none (some axes) .std

/-- Function `nufft` from the source (lines 77-127): apodize, divide by
`sqrt(prod(input.shape[-ndim:]))`, zero-pad to the oversampled shape,
centered FFT over the trailing `ndim` axes (`norm=None`), rescale the
coordinates, interpolate with the Kaiser-Bessel kernel, divide by
`width ** ndim`. -/
noncomputable def nufft (E : FFTEngine ℂ) (I : InterpEngine)
    (input : Arr ℂ) (coord : Arr ℚ) (oversamp : ℚ := 5/4) (width : ℚ := 4) :
    Arr ℂ :=
  let ndim := coord.shape.getLastD 0
  let beta := betaVal width oversamp
  let os_shape := _get_oversamp_shape input.shape ndim oversamp
  let output := _apodize input ndim oversamp width beta
  let output := divArr output
    ((Real.sqrt ((utilProd (sliceFromNeg input.shape ndim) : ℕ) : ℝ) : ℝ) : ℂ)
  let output := resize output os_shape
  let output := fftArr E output (negRange ndim)
  let coord2 := _scale_coord coord input.shape oversamp
  let output := I.interpolate output coord2 kaiserBessel width beta
  divArr output ((width : ℂ) ^ ndim)

/-- Function `nufft_adjoint` from the source (lines 130-182): rescale coordinates,
gridding onto the oversampled grid, divide by `width ** ndim`, centered
IFFT (`norm=None`), crop to `oshape`, multiply by
`prod(os_shape[-ndim:]) / prod(oshape[-ndim:]) ** 0.5` (the power binds
before the division), apodize. -/
noncomputable def nufft_adjoint (E : FFTEngine ℂ) (I : InterpEngine)
    (input : Arr ℂ) (coord : Arr ℚ) (oshape : List ℕ)
    (oversamp : ℚ := 5/4) (width : ℚ := 4) : Arr ℂ :=
  let ndim := coord.shape.getLastD 0
  let beta := betaVal width oversamp
  let os_shape := _get_oversamp_shape oshape ndim oversamp
  let coord2 := _scale_coord coord oshape oversamp
  let output := I.gridding input coord2 os_shape kaiserBessel width beta
  let output := divArr output ((width : ℂ) ^ ndim)
  let output := ifftArr E output (negRange ndim)
  let output := resize output oshape
  let output := smulArr
    (((utilProd (sliceFromNeg os_shape ndim) : ℕ) : ℂ)
      / ((Real.sqrt ((utilProd (sliceFromNeg oshape ndim) : ℕ) : ℝ) : ℝ) : ℂ))
    output
  _apodize output ndim oversamp width beta

/-- The product of the per-axis apodization factors a single entry picks up
over the trailing `ndim` axes — the total multiplicative effect of
`_apodize` on the entry at multi-index `v` of an array of shape `s`. -/
noncomputable def apodFactor (s : List ℕ) (ndim : ℕ) (oversamp width : ℚ)
    (beta : ℂ) (v : List ℕ) : ℂ :=
  (List.range ndim).foldl (fun acc k =>
      let a := s.length - ndim + k
      acc * apodEntry (s.getD a 0) oversamp width beta (v.getD a 0)) 1

/-- A trivial instantiation of the external interpolation collaborator that
obeys the shape contracts (empty payloads), used to instantiate
hypothesis-carrying theorems on concrete inputs. -/
def shapeInterpEngine : InterpEngine :=
  ⟨fun g c _ _ _ => ⟨sliceUpToNeg g.shape (c.shape.getLastD 0) ++ sliceUpToNeg c.shape 1, []⟩,
   fun _ _ gs _ _ _ => ⟨gs, []⟩⟩

/-- A trivial instantiation of the external FFT engine over `ℂ` (identity
transforms), used to instantiate hypothesis-carrying theorems on concrete
inputs. -/
def idEngineC : FFTEngine ℂ :=
  ⟨fun a _ _ _ => a, fun a _ _ _ => a, fun d => d⟩

/-! ### Heap model (object identity and mutation) -/

/-- A heap of array objects: references are allocation indices below `next`. -/
structure Heap (α : Type) where
  next : ℕ
  mem : ℕ → Arr α

/-- Allocate a fresh array object, returning the new heap and a reference to
the object.  Every jax array-producing operation allocates: jnp arrays are
immutable, and augmented assignments (`*=`, `/=`) on them fall back to the
pure operators, rebinding the local name to a fresh result object — no
`__imul__`-style in-place write exists for them. -/
def Heap.alloc {α : Type} (h : Heap α) (v : Arr α) : Heap α × ℕ :=
  (⟨h.next + 1, fun k => if k = h.next then v else h.mem k⟩, h.next)

/-- Run a pure array operation at the heap level: read the argument object,
allocate the result object. -/
def heapOp {α : Type} (f : Arr α → Arr α) (h : Heap α) (r : ℕ) : Heap α × ℕ :=
  h.alloc (f (h.mem r))

/-- Function `_apodize` at the heap level: `output = input` aliases the caller's
object, then each loop iteration's `output *= apod.reshape(...)` allocates a
fresh product object (see `Heap.alloc`) — the input object is only read. -/
noncomputable def apodizeHeap (ndim : ℕ) (oversamp width : ℚ) (beta : ℂ)
    (h : Heap ℂ) (r : ℕ) : Heap ℂ × ℕ :=
  (List.range ndim).foldl (fun p k =>
      heapOp (fun out =>
        let a := out.shape.length - ndim + k
        let i := out.shape.getD a 0
        mulAxis out a (fun idx => apodEntry i oversamp width beta idx)) p.1 p.2)
    (h, r)

/-- Function `nufft` at the heap level: statement-by-statement image of lines 108-127,
with every array-producing statement allocating and the caller's `input`
(reference `rin` in the `ℂ`-heap) and `coord` (reference `rc` in the
`ℚ`-heap) objects only ever read.  `coord = _scale_coord(coord, ...)`
allocates the rescaled coordinates and rebinds the local name. -/
noncomputable def nufftHeap (E : FFTEngine ℂ) (I : InterpEngine)
    (hc : Heap ℂ) (hq : Heap ℚ) (rin rc : ℕ) (oversamp width : ℚ) :
    Heap ℂ × Heap ℚ × ℕ :=
  let coord := hq.mem rc
  let ndim := coord.shape.getLastD 0
  let beta := betaVal width oversamp
  let os_shape := _get_oversamp_shape (hc.mem rin).shape ndim oversamp
  let p1 := apodizeHeap ndim oversamp width beta hc rin
  let p2 := heapOp (fun v => divArr v
    ((Real.sqrt ((utilProd (sliceFromNeg (hc.mem rin).shape ndim) : ℕ) : ℝ) : ℝ) : ℂ))
    p1.1 p1.2
  let p3 := heapOp (fun v => resize v os_shape) p2.1 p2.2
  let p4 := heapOp (fun v => fftArr E v (negRange ndim)) p3.1 p3.2
  let q1 := hq.alloc (_scale_coord coord (hc.mem rin).shape oversamp)
  let p5 := heapOp (fun v => I.interpolate v (q1.1.mem q1.2) kaiserBessel width beta)
    p4.1 p4.2
  let p6 := heapOp (fun v => divArr v ((width : ℂ) ^ ndim)) p5.1 p5.2
  (p6.1, q1.1, p6.2)

/-- Function `nufft_adjoint` at the heap level: statement-by-statement image of lines
157-182; the caller's `input` and `coord` objects are only read, every
array-producing statement allocates. -/
noncomputable def nufftAdjointHeap (E : FFTEngine ℂ) (I : InterpEngine)
    (hc : Heap ℂ) (hq : Heap ℚ) (rin rc : ℕ) (oshape : List ℕ)
    (oversamp width : ℚ) : Heap ℂ × Heap ℚ × ℕ :=
  let coord := hq.mem rc
  let ndim := coord.shape.getLastD 0
  let beta := betaVal width oversamp
  let os_shape := _get_oversamp_shape oshape ndim oversamp
  let q1 := hq.alloc (_scale_coord coord oshape oversamp)
  let p1 := heapOp (fun v => I.gridding v (q1.1.mem q1.2) os_shape
    kaiserBessel width beta) hc rin
  let p2 := heapOp (fun v => divArr v ((width : ℂ) ^ ndim)) p1.1 p1.2
  let p3 := heapOp (fun v => ifftArr E v (negRange ndim)) p2.1 p2.2
  let p4 := heapOp (fun v => resize v oshape) p3.1 p3.2
  let p5 := heapOp (fun v => smulArr
    (((utilProd (sliceFromNeg os_shape ndim) : ℕ) : ℂ)
      / ((Real.sqrt ((utilProd (sliceFromNeg oshape ndim) : ℕ) : ℝ) : ℝ) : ℂ)) v)
    p4.1 p4.2
  let p6 := apodizeHeap ndim oversamp width beta p5.1 p5.2
  (p6.1, q1.1, p6.2)

/-- One heap is an extension of another: nothing already allocated has been
freed or overwritten. -/
def Heap.Extends {α : Type} (h h' : Heap α) : Prop :=
  h.next ≤ h'.next ∧ ∀ k, k < h.next → h'.mem k = h.mem k

/-! ### Supporting lemmas -/

/-- The first element bounds a `foldl min` from above. -/
theorem foldl_min_le_init (x : ℚ) (xs : List ℚ) : xs.foldl min x ≤ x := by
  induction xs generalizing x with
  | nil => exact le_refl x
  | cons y ys ih => exact le_trans (ih (min x y)) (min_le_left x y)

/-- The first element bounds a `foldl max` from below. -/
theorem le_foldl_max_init (x : ℚ) (xs : List ℚ) : x ≤ xs.foldl max x := by
  induction xs generalizing x with
  | nil => exact le_refl x
  | cons y ys ih => exact le_trans (le_max_left x y) (ih (max x y))

/-- On a non-empty list the minimum is at most the maximum. -/
theorem listMin_le_listMax (l : List ℚ) (h : l ≠ []) : listMin l ≤ listMax l := by
  cases l with
  | nil => exact absurd rfl h
  | cons x xs =>
      exact le_trans (foldl_min_le_init x xs) (le_foldl_max_init x xs)

/-- A natural is at most the ceiling of its product with a factor `≥ 1`. -/
theorem le_toNat_ceil_mul (oversamp : ℚ) (s : ℕ) (h : 1 ≤ oversamp) :
    s ≤ (⌈oversamp * (s : ℚ)⌉).toNat := by
  have hle : (s : ℚ) ≤ oversamp * (s : ℚ) :=
    le_mul_of_one_le_left (by positivity) h
  have hc : (s : ℤ) ≤ ⌈oversamp * (s : ℚ)⌉ := by
    have := Int.ceil_le_ceil hle
    simpa using this
  have hnn : (0 : ℤ) ≤ ⌈oversamp * (s : ℚ)⌉ := le_trans (by positivity) hc
  exact (Int.le_toNat hnn).mpr hc

/-! ### Claim theorems: C1, C2, C8 -/

/-- C1 (counterexample): for `width = 1`, `oversamp = 1.0` the radicand of the
`beta` derivation is negative, yet the computation on lines 109/158 does not
fail with a `DomainError` (nor any exception): Python 3 float power of a
negative base returns a complex value, so `betaCompute` yields `Except.ok`. -/
theorem c1_beta_counterexample :
    radicand 1 1 < 0 ∧ betaCompute 1 1 ≠ Except.error PyError.domainError := by
  refine ⟨by norm_num [radicand], ?_⟩
  simp [betaCompute]

/-- C1 (amended): `beta(width = 4, oversamp = 1.25)` is a real, positive value;
`beta(width = 1, oversamp = 1.0)` has a negative radicand `-11/20` but instead
of raising a `DomainError` the code silently returns the non-real complex
value `π * (i * sqrt (11/20))`. -/
theorem c1_beta_values :
    (betaVal 4 (5/4)).im = 0 ∧ 0 < (betaVal 4 (5/4)).re ∧
      betaCompute 1 1 =
        Except.ok ((Real.pi : ℂ) * (Complex.I * ((Real.sqrt ((11:ℚ)/20) : ℝ) : ℂ))) := by
  have h1 : radicand 4 (5/4) = 124/25 := by norm_num [radicand]
  have h2 : radicand 1 1 = -(11/20) := by norm_num [radicand]
  have hval : betaVal 4 (5/4) = (((Real.pi * Real.sqrt ((124:ℚ)/25)) : ℝ) : ℂ) := by
    rw [betaVal, h1, pyPowHalf, if_pos (by norm_num)]
    push_cast
    ring
  refine ⟨?_, ?_, ?_⟩
  · rw [hval]; exact Complex.ofReal_im _
  · rw [hval, Complex.ofReal_re]
    have hs : 0 < Real.sqrt ((124:ℚ)/25) := by
      apply Real.sqrt_pos.mpr
      norm_num
    positivity
  · rw [betaCompute, betaVal, h2, pyPowHalf, if_neg (by norm_num)]
    norm_num

/-- C2 (counterexample): for the coordinate array `[[0], [5/2]]` (one axis,
range `5/2`), the source computes `int(5/2) = 2` while the claimed ceiling is
`⌈5/2⌉ = 3`: `estimate_shape` truncates, it does not take a ceiling. -/
theorem c2_estimate_shape_counterexample :
    estimate_shape [[0], [5/2]] 1 = [2] ∧
      estimate_shape_spec [[0], [5/2]] 1 = [3] := by
  have hmax : listMax (axisVals [[0], [5/2]] 0) = 5/2 := by
    simp [listMax, axisVals, max_def]
    norm_num
  have hmin : listMin (axisVals [[0], [5/2]] 0) = 0 := by
    simp [listMin, axisVals, min_def]
    norm_num
  have hr : List.range 1 = [0] := rfl
  constructor
  · simp only [estimate_shape, hr, List.map_cons, List.map_nil,
      hmax, hmin, pyIntTrunc]
    norm_num [Int.floor_eq_iff]
  · simp only [estimate_shape_spec, hr, List.map_cons, List.map_nil,
      hmax, hmin]
    norm_num [Int.ceil_eq_iff]

/-- C2 (amended): for every non-empty coordinate array, `estimate_shape`
returns per axis the truncation toward zero of `max - min`; since the range is
non-negative this is the floor (not the ceiling) of the range. -/
theorem c2_estimate_shape_trunc (coord : List (List ℚ)) (ndim : ℕ)
    (h : coord ≠ []) :
    estimate_shape coord ndim =
      (List.range ndim).map
        (fun i => ⌊listMax (axisVals coord i) - listMin (axisVals coord i)⌋) := by
  unfold estimate_shape
  apply List.map_congr_left
  intro i _
  have hne : axisVals coord i ≠ [] := by
    unfold axisVals
    simpa using h
  have hd : 0 ≤ listMax (axisVals coord i) - listMin (axisVals coord i) :=
    sub_nonneg.mpr (listMin_le_listMax _ hne)
  rw [pyIntTrunc, if_pos hd]

/-- Witness for `c2_estimate_shape_trunc` at the concrete array `[[0], [5/2]]`. -/
theorem c2_estimate_shape_trunc_witness :
    estimate_shape [[0], [5/2]] 1 =
      [⌊listMax (axisVals [[0], [5/2]] 0) - listMin (axisVals [[0], [5/2]] 0)⌋] := by
  have h := c2_estimate_shape_trunc [[0], [5/2]] 1 (by decide)
  simpa using h

/-- C8 (confirmed): `_get_oversamp_shape shape ndim oversamp` equals
`shape[:-ndim] ++ [ceil(oversamp * s) for s in shape[-ndim:]]`, preserves the
length, leaves the leading axes unchanged, and (for `oversamp ≥ 1`) every
resulting length dominates the original one. -/
theorem c8_get_oversamp_shape (shape : List ℕ) (ndim : ℕ) (oversamp : ℚ)
    (h1 : 1 ≤ ndim) (h2 : ndim ≤ shape.length) (h3 : 1 ≤ oversamp) :
    _get_oversamp_shape shape ndim oversamp
      = shape.take (shape.length - ndim)
        ++ (shape.drop (shape.length - ndim)).map
            (fun i : ℕ => (⌈oversamp * (i : ℚ)⌉).toNat)
    ∧ (_get_oversamp_shape shape ndim oversamp).length = shape.length
    ∧ (_get_oversamp_shape shape ndim oversamp).take (shape.length - ndim)
        = shape.take (shape.length - ndim)
    ∧ ∀ k, shape.getD k 0 ≤ (_get_oversamp_shape shape ndim oversamp).getD k 0 := by
  have hne : ndim ≠ 0 := Nat.one_le_iff_ne_zero.mp h1
  have heq : _get_oversamp_shape shape ndim oversamp
      = shape.take (shape.length - ndim)
        ++ (shape.drop (shape.length - ndim)).map
            (fun i : ℕ => (⌈oversamp * (i : ℚ)⌉).toNat) := by
    rw [_get_oversamp_shape, sliceUpToNeg, sliceFromNeg, if_neg hne, if_neg hne]
  have hlen_take : (shape.take (shape.length - ndim)).length = shape.length - ndim := by
    rw [List.length_take]
    exact Nat.min_eq_left (Nat.sub_le _ _)
  have hlen : (_get_oversamp_shape shape ndim oversamp).length = shape.length := by
    rw [heq, List.length_append, hlen_take, List.length_map, List.length_drop]
    omega
  refine ⟨heq, hlen, ?_, ?_⟩
  · rw [heq, List.take_left' hlen_take]
  · intro k
    rw [heq]
    rcases lt_or_ge k (shape.length - ndim) with hk | hk
    · have hgl : (shape.take (shape.length - ndim)
          ++ (shape.drop (shape.length - ndim)).map
              (fun i : ℕ => (⌈oversamp * (i : ℚ)⌉).toNat))[k]?
          = shape[k]? := by
        rw [List.getElem?_append_left (by rw [hlen_take]; exact hk),
          List.getElem?_take, if_pos hk]
      rw [List.getD_eq_getElem?_getD, List.getD_eq_getElem?_getD, hgl]
    · rcases lt_or_ge k shape.length with hk2 | hk2
      · have hgl : (shape.take (shape.length - ndim)
            ++ (shape.drop (shape.length - ndim)).map
                (fun i : ℕ => (⌈oversamp * (i : ℚ)⌉).toNat))[k]?
            = (shape[k]?).map (fun i : ℕ => (⌈oversamp * (i : ℚ)⌉).toNat) := by
          rw [List.getElem?_append_right (by rw [hlen_take]; exact hk),
            hlen_take, List.getElem?_map, List.getElem?_drop]
          congr 2
          omega
        rw [List.getD_eq_getElem?_getD, List.getD_eq_getElem?_getD, hgl,
          List.getElem?_eq_getElem hk2]
        exact le_toNat_ceil_mul oversamp _ h3
      · rw [List.getD_eq_getElem?_getD, List.getD_eq_getElem?_getD,
          List.getElem?_eq_none hk2]
        simp

/-- Witness for `c8_get_oversamp_shape` at `shape = [4, 6]`, `ndim = 1`,
`oversamp = 5/4`: the trailing length grows from 6 to `⌈7.5⌉ = 8`. -/
theorem c8_get_oversamp_shape_witness :
    [4, 6].getD 1 0 ≤ (_get_oversamp_shape [4, 6] 1 (5/4)).getD 1 0 := by
  have h := c8_get_oversamp_shape [4, 6] 1 (5/4) (by decide) (by decide) (by norm_num)
  exact h.2.2.2 1

/-! ### Index arithmetic lemmas -/

/-- A valid multi-index flattens below the shape's volume. -/
theorem flattenIdx_lt_prod (s idx : List ℕ) (h : validIdx s idx = true) :
    flattenIdx s idx < s.prod := by
  induction s generalizing idx with
  | nil =>
      cases idx with
      | nil => simp [flattenIdx]
      | cons i is => simp [validIdx] at h
  | cons s0 ss ih =>
      cases idx with
      | nil => simp [validIdx] at h
      | cons i is =>
          rw [validIdx, Bool.and_eq_true, decide_eq_true_eq] at h
          have hrec := ih is h.2
          calc flattenIdx (s0 :: ss) (i :: is)
              = i * ss.prod + flattenIdx ss is := rfl
            _ < i * ss.prod + ss.prod := by omega
            _ = (i + 1) * ss.prod := by ring
            _ ≤ s0 * ss.prod := Nat.mul_le_mul_right _ h.1
            _ = (s0 :: ss).prod := by simp

/-- Unflattening a valid index's flattening recovers it. -/
theorem unflattenIdx_flattenIdx (s idx : List ℕ) (h : validIdx s idx = true) :
    unflattenIdx s (flattenIdx s idx) = idx := by
  induction s generalizing idx with
  | nil =>
      cases idx with
      | nil => rfl
      | cons i is => simp [validIdx] at h
  | cons s0 ss ih =>
      cases idx with
      | nil => simp [validIdx] at h
      | cons i is =>
          rw [validIdx, Bool.and_eq_true, decide_eq_true_eq] at h
          have hlt : flattenIdx ss is < ss.prod := flattenIdx_lt_prod ss is h.2
          have hpos : 0 < ss.prod := by omega
          show (i * ss.prod + flattenIdx ss is) / ss.prod
              :: unflattenIdx ss ((i * ss.prod + flattenIdx ss is) % ss.prod)
              = i :: is
          have hdiv : (i * ss.prod + flattenIdx ss is) / ss.prod = i := by
            rw [Nat.add_comm, Nat.add_mul_div_right _ _ hpos,
              Nat.div_eq_of_lt hlt, Nat.zero_add]
          have hmod : (i * ss.prod + flattenIdx ss is) % ss.prod
              = flattenIdx ss is := by
            rw [Nat.add_comm, Nat.add_mul_mod_self_right, Nat.mod_eq_of_lt hlt]
          rw [hdiv, hmod, ih is h.2]

/-- Flattening the unflattening of an in-range position recovers it. -/
theorem flattenIdx_unflattenIdx (s : List ℕ) (n : ℕ) (h : n < s.prod) :
    flattenIdx s (unflattenIdx s n) = n := by
  induction s generalizing n with
  | nil =>
      simp only [List.prod_nil] at h
      interval_cases n
      rfl
  | cons s0 ss ih =>
      have hpos : 0 < ss.prod := by
        rcases Nat.eq_zero_or_pos ss.prod with h0 | h0
        · rw [List.prod_cons, h0, Nat.mul_zero] at h
          omega
        · exact h0
      show (n / ss.prod) * ss.prod + flattenIdx ss (unflattenIdx ss (n % ss.prod)) = n
      rw [ih _ (Nat.mod_lt _ hpos), Nat.mul_comm]
      exact Nat.div_add_mod n ss.prod

/-- Unflattening an in-range position yields a valid multi-index. -/
theorem validIdx_unflattenIdx (s : List ℕ) (n : ℕ) (h : n < s.prod) :
    validIdx s (unflattenIdx s n) = true := by
  induction s generalizing n with
  | nil => rfl
  | cons s0 ss ih =>
      have hpos : 0 < ss.prod := by
        rcases Nat.eq_zero_or_pos ss.prod with h0 | h0
        · rw [List.prod_cons, h0, Nat.mul_zero] at h
          omega
        · exact h0
      show (decide (n / ss.prod < s0) && validIdx ss (unflattenIdx ss (n % ss.prod))) = true
      rw [Bool.and_eq_true, decide_eq_true_eq]
      refine ⟨?_, ih _ (Nat.mod_lt _ hpos)⟩
      rw [Nat.div_lt_iff_lt_mul hpos]
      rw [List.prod_cons] at h
      omega

/-! ### Array lemmas -/

/-- Reading a list back entry by entry over its whole range rebuilds it. -/
theorem range_map_getD {α : Type} (l : List α) (z : α) :
    (List.range l.length).map (fun n => l.getD n z) = l := by
  apply List.ext_getElem
  · simp
  · intro n h1 h2
    simp [List.getD_eq_getElem?_getD, List.getElem?_eq_getElem h2]

/-- Entry of `arrMap` at an in-range position. -/
theorem arrMap_data_getD {α : Type} [Zero α] (x : Arr α) (g : List ℕ → List ℕ)
    (n : ℕ) (hn : n < x.shape.prod) :
    (arrMap x g).data.getD n 0
      = x.data.getD (flattenIdx x.shape (g (unflattenIdx x.shape n))) 0 := by
  rw [arrMap, List.getD_eq_getElem?_getD, List.getElem?_map,
    List.getElem?_range hn]
  rfl

/-- The data of `arrMap` always matches its shape. -/
theorem arrMap_wf {α : Type} [Zero α] (x : Arr α) (g : List ℕ → List ℕ) :
    (arrMap x g).wf := by
  simp [arrMap, Arr.wf]

/-- Composing two index-shuffles collapses into one, provided the outer
shuffle maps valid indices to valid indices. -/
theorem arrMap_arrMap {α : Type} [Zero α] (x : Arr α) (g1 g2 : List ℕ → List ℕ)
    (hg2 : ∀ v, validIdx x.shape v = true → validIdx x.shape (g2 v) = true) :
    arrMap (arrMap x g1) g2 = arrMap x (fun v => g1 (g2 v)) := by
  show Arr.mk x.shape ((List.range x.shape.prod).map
        (fun n => (arrMap x g1).data.getD
          (flattenIdx x.shape (g2 (unflattenIdx x.shape n))) 0))
      = Arr.mk x.shape ((List.range x.shape.prod).map
        (fun n => x.data.getD
          (flattenIdx x.shape (g1 (g2 (unflattenIdx x.shape n)))) 0))
  apply congrArg (Arr.mk x.shape)
  apply List.map_congr_left
  intro n hn
  rw [List.mem_range] at hn
  have hv : validIdx x.shape (unflattenIdx x.shape n) = true :=
    validIdx_unflattenIdx _ _ hn
  have hw : validIdx x.shape (g2 (unflattenIdx x.shape n)) = true := hg2 _ hv
  have hm : flattenIdx x.shape (g2 (unflattenIdx x.shape n)) < x.shape.prod :=
    flattenIdx_lt_prod _ _ hw
  rw [arrMap_data_getD x g1 _ hm, unflattenIdx_flattenIdx _ _ hw]

/-- An index-shuffle that fixes every valid index is the identity on
well-formed arrays. -/
theorem arrMap_eq_self {α : Type} [Zero α] (x : Arr α) (g : List ℕ → List ℕ)
    (hwf : x.wf) (hg : ∀ v, validIdx x.shape v = true → g v = v) :
    arrMap x g = x := by
  cases x with
  | mk s d =>
      simp only [Arr.wf] at hwf
      rw [arrMap]
      apply congrArg (Arr.mk s)
      have h1 : ∀ n ∈ List.range (Arr.mk s d).shape.prod,
          (Arr.mk s d).data.getD
              (flattenIdx (Arr.mk s d).shape (g (unflattenIdx (Arr.mk s d).shape n))) 0
            = (Arr.mk s d).data.getD n 0 := by
        intro n hn
        rw [List.mem_range] at hn
        rw [hg _ (validIdx_unflattenIdx _ _ hn), flattenIdx_unflattenIdx _ _ hn]
      rw [List.map_congr_left h1]
      show (List.range s.prod).map (fun n => d.getD n 0) = d
      rw [← hwf, range_map_getD]

/-- Simultaneous per-axis shifts preserve validity. -/
theorem validIdx_shiftIdxFrom (axes : List ℕ) (off : ℕ → ℕ) (a : ℕ)
    (shape v : List ℕ) (h : validIdx shape v = true) :
    validIdx shape (shiftIdxFrom axes off a shape v) = true := by
  induction shape generalizing a v with
  | nil =>
      cases v with
      | nil => exact h
      | cons i is => simp [validIdx] at h
  | cons s ss ih =>
      cases v with
      | nil => simp [validIdx] at h
      | cons i is =>
          rw [validIdx, Bool.and_eq_true, decide_eq_true_eq] at h
          show validIdx (s :: ss)
              ((if a ∈ axes then (i + off s) % s else i)
                :: shiftIdxFrom axes off (a + 1) ss is) = true
          rw [validIdx, Bool.and_eq_true, decide_eq_true_eq]
          refine ⟨?_, ih (a + 1) is h.2⟩
          by_cases hmem : a ∈ axes
          · rw [if_pos hmem]
            exact Nat.mod_lt _ (by omega)
          · rw [if_neg hmem]
            exact h.1

/-- Two simultaneous shifts whose offsets sum to a multiple of each axis
length cancel on valid indices. -/
theorem shiftIdxFrom_cancel (axes : List ℕ) (off1 off2 : ℕ → ℕ)
    (hoff : ∀ s, 0 < s → (off1 s + off2 s) % s = 0)
    (a : ℕ) (shape v : List ℕ) (h : validIdx shape v = true) :
    shiftIdxFrom axes off2 a shape (shiftIdxFrom axes off1 a shape v) = v := by
  induction shape generalizing a v with
  | nil =>
      cases v with
      | nil => rfl
      | cons i is => simp [validIdx] at h
  | cons s ss ih =>
      cases v with
      | nil => simp [validIdx] at h
      | cons i is =>
          rw [validIdx, Bool.and_eq_true, decide_eq_true_eq] at h
          have hs : 0 < s := by omega
          show (if a ∈ axes then
                  ((if a ∈ axes then (i + off1 s) % s else i) + off2 s) % s
                else (if a ∈ axes then (i + off1 s) % s else i))
              :: shiftIdxFrom axes off2 (a + 1) ss (shiftIdxFrom axes off1 (a + 1) ss is)
              = i :: is
          rw [ih (a + 1) is h.2]
          by_cases hmem : a ∈ axes
          · rw [if_pos hmem, if_pos hmem, Nat.mod_add_mod, Nat.add_assoc,
              Nat.add_mod i _ s, hoff s hs, Nat.add_zero,
              Nat.mod_eq_of_lt h.1, Nat.mod_eq_of_lt h.1]
          · rw [if_neg hmem, if_neg hmem]

/-- Shift inverse: `ifftshift` undoes `fftshift` on well-formed arrays. -/
theorem ifftshift_fftshift {α : Type} [Zero α] (z : Arr α) (ax : List ℕ)
    (h : z.wf) : ifftshift (fftshift z ax) ax = z := by
  show arrMap (arrMap z (shiftIdxMap z.shape ax (fun s => s - s / 2)))
      (shiftIdxMap z.shape ax (fun s => s / 2)) = z
  have hg : ∀ v, validIdx z.shape v = true →
      validIdx z.shape (shiftIdxMap z.shape ax (fun s => s / 2) v) = true := by
    intro v hv
    exact validIdx_shiftIdxFrom ax _ 0 z.shape v hv
  rw [arrMap_arrMap _ _ _ hg]
  apply arrMap_eq_self _ _ h
  intro v hv
  exact shiftIdxFrom_cancel ax (fun s => s / 2) (fun s => s - s / 2)
    (fun s hs => by
      have h2 : s / 2 + (s - s / 2) = s := by omega
      rw [h2, Nat.mod_self]) 0 z.shape v hv

/-- Shift inverse: `fftshift` undoes `ifftshift` on well-formed arrays. -/
theorem fftshift_ifftshift {α : Type} [Zero α] (z : Arr α) (ax : List ℕ)
    (h : z.wf) : fftshift (ifftshift z ax) ax = z := by
  show arrMap (arrMap z (shiftIdxMap z.shape ax (fun s => s / 2)))
      (shiftIdxMap z.shape ax (fun s => s - s / 2)) = z
  have hg : ∀ v, validIdx z.shape v = true →
      validIdx z.shape (shiftIdxMap z.shape ax (fun s => s - s / 2) v) = true := by
    intro v hv
    exact validIdx_shiftIdxFrom ax _ 0 z.shape v hv
  rw [arrMap_arrMap _ _ _ hg]
  apply arrMap_eq_self _ _ h
  intro v hv
  exact shiftIdxFrom_cancel ax (fun s => s - s / 2) (fun s => s / 2)
    (fun s hs => by
      have h2 : s - s / 2 + s / 2 = s := by omega
      rw [h2, Nat.mod_self]) 0 z.shape v hv

/-- With equal input and output lengths, `resizeIdx` fixes in-range
positions. -/
theorem resizeIdx_self (i j : ℕ) (h : j < i) : resizeIdx i i j = some j := by
  simp [resizeIdx, h]

/-- With equal input and output shapes, `resizeMap` fixes valid indices. -/
theorem resizeMap_self (s v : List ℕ) (h : validIdx s v = true) :
    resizeMap s s v = some v := by
  induction s generalizing v with
  | nil =>
      cases v with
      | nil => rfl
      | cons i is => simp [validIdx] at h
  | cons s0 ss ih =>
      cases v with
      | nil => simp [validIdx] at h
      | cons i is =>
          rw [validIdx, Bool.and_eq_true, decide_eq_true_eq] at h
          show (match resizeIdx s0 s0 i, resizeMap ss ss is with
              | some k, some ks => some (k :: ks)
              | _, _ => none) = some (i :: is)
          rw [resizeIdx_self s0 i h.1, ih is h.2]

/-- Resizing a well-formed array to its own shape is the identity
(the spec's "no resize" case of the centered transform). -/
theorem resize_self {α : Type} [Zero α] (x : Arr α) (h : x.wf) :
    resize x x.shape = x := by
  cases x with
  | mk s d =>
      simp only [Arr.wf] at h
      rw [resize]
      apply congrArg (Arr.mk s)
      have h1 : ∀ n ∈ List.range s.prod,
          (match resizeMap s s (unflattenIdx s n) with
            | some v => d.getD (flattenIdx s v) 0
            | none => 0) = d.getD n 0 := by
        intro n hn
        rw [List.mem_range] at hn
        rw [resizeMap_self s _ (validIdx_unflattenIdx s n hn)]
        show d.getD (flattenIdx s (unflattenIdx s n)) 0 = d.getD n 0
        rw [flattenIdx_unflattenIdx s n hn]
      rw [List.map_congr_left h1]
      show (List.range s.prod).map (fun n => d.getD n 0) = d
      rw [← h, range_map_getD]

/-- Resizing a well-formed array to any list equal to its shape is the
identity. -/
theorem resize_eq_self {α : Type} [Zero α] (x : Arr α) (s : List ℕ)
    (h : x.wf) (hs : s = x.shape) : resize x s = x := by
  rw [hs]
  exact resize_self x h

/-- Resizing always produces a well-formed array of the target shape. -/
theorem resize_wf {α : Type} [Zero α] (x : Arr α) (oshape : List ℕ) :
    (resize x oshape).wf ∧ (resize x oshape).shape = oshape := by
  constructor
  · simp [resize, Arr.wf]
  · rfl

/-- On complex input, centered `fft` is `_fftc` with the input's dtype
restored. -/
theorem fft_complex_centered {α : Type} [Zero α] (E : FFTEngine α) (x : DArr α)
    (oshape : Option (List ℕ)) (axes : Option (List ℤ)) (norm : FftNorm)
    (hc : x.dtype.isComplex = true) :
    fft E x oshape axes true norm = ⟨x.dtype, _fftc E x.arr oshape axes norm⟩ := by
  by_cases hd : x.dtype = E.outDtype x.dtype
  · simp [fft, hc, DArr.astype, ← hd]
  · simp [fft, hc, DArr.astype, hd]

/-- On complex input, centered `ifft` is `_ifftc` with the input's dtype
restored. -/
theorem ifft_complex_centered {α : Type} [Zero α] (E : FFTEngine α) (x : DArr α)
    (oshape : Option (List ℕ)) (axes : Option (List ℤ)) (norm : FftNorm)
    (hc : x.dtype.isComplex = true) :
    ifft E x oshape axes true norm = ⟨x.dtype, _ifftc E x.arr oshape axes norm⟩ := by
  by_cases hd : x.dtype = E.outDtype x.dtype
  · simp [ifft, hc, DArr.astype, ← hd]
  · simp [ifft, hc, DArr.astype, hd]

/-- The centered inverse transform undoes the centered forward transform on
well-formed arrays, for an engine whose raw `fftn`/`ifftn` pair is
shape-preserving and mutually inverse. -/
theorem _ifftc_fftc {α : Type} [Zero α] (E : FFTEngine α) (y : Arr α)
    (oshape1 oshape2 : Option (List ℕ)) (axes : Option (List ℤ)) (norm : FftNorm)
    (hwf : y.wf)
    (ho1 : oshape1 = none ∨ oshape1 = some y.shape)
    (ho2 : oshape2 = none ∨ oshape2 = some y.shape)
    (hshape : ∀ a s ax n, (E.fftn a s ax n).shape = a.shape)
    (hwfp : ∀ a s ax n, a.wf → (E.fftn a s ax n).wf)
    (hinv : ∀ a ax n, E.ifftn (E.fftn a none ax n) none ax n = a) :
    _ifftc E (_fftc E y oshape1 axes norm) oshape2 axes norm = y := by
  have hfftc : _fftc E y oshape1 axes norm
      = fftshift (E.fftn (ifftshift y (normalizeAxes axes y.shape.length)) none
          (some ((normalizeAxes axes y.shape.length).map (fun a : ℕ => (a : ℤ)))) norm)
          (normalizeAxes axes y.shape.length) := by
    simp only [_fftc]
    have hresize : resize y (oshape1.getD y.shape) = y := by
      rcases ho1 with h | h
      · rw [h, Option.getD_none, resize_self y hwf]
      · rw [h, Option.getD_some, resize_self y hwf]
    rw [hresize]
  have hv1s : (fftshift (E.fftn (ifftshift y (normalizeAxes axes y.shape.length)) none
        (some ((normalizeAxes axes y.shape.length).map (fun a : ℕ => (a : ℤ)))) norm)
        (normalizeAxes axes y.shape.length)).shape = y.shape :=
    hshape _ _ _ _
  rw [hfftc]
  simp only [_ifftc]
  rw [hv1s]
  have hres2 : resize (fftshift (E.fftn (ifftshift y (normalizeAxes axes y.shape.length)) none
        (some ((normalizeAxes axes y.shape.length).map (fun a : ℕ => (a : ℤ)))) norm)
        (normalizeAxes axes y.shape.length)) (oshape2.getD y.shape)
      = fftshift (E.fftn (ifftshift y (normalizeAxes axes y.shape.length)) none
        (some ((normalizeAxes axes y.shape.length).map (fun a : ℕ => (a : ℤ)))) norm)
        (normalizeAxes axes y.shape.length) := by
    have hgd : oshape2.getD y.shape = y.shape := by
      rcases ho2 with h | h
      · rw [h, Option.getD_none]
      · rw [h, Option.getD_some]
    have hv1wf : (fftshift (E.fftn (ifftshift y (normalizeAxes axes y.shape.length)) none
        (some ((normalizeAxes axes y.shape.length).map (fun a : ℕ => (a : ℤ)))) norm)
        (normalizeAxes axes y.shape.length)).wf := arrMap_wf _ _
    rw [hgd]
    exact resize_eq_self _ _ hv1wf hv1s.symm
  rw [hres2]
  have hF1wf : (E.fftn (ifftshift y (normalizeAxes axes y.shape.length)) none
      (some ((normalizeAxes axes y.shape.length).map (fun a : ℕ => (a : ℤ)))) norm).wf :=
    hwfp _ _ _ _ (arrMap_wf _ _)
  rw [ifftshift_fftshift _ _ hF1wf]
  rw [hinv]
  exact fftshift_ifftshift y _ hwf

/-- C4 (confirmed): for every complex-dtype, well-formed array, any axis
subset and matching output shapes (omitted or equal to the input's shape),
`ifft` after `fft` — both centered, with the same axes and normalization —
reproduces the original array exactly, over the embedding in which the
external raw `fftn`/`ifftn` pair is shape-preserving and mutually inverse. -/
theorem c4_fft_ifft_roundtrip {α : Type} [Zero α] (E : FFTEngine α)
    (x : DArr α) (oshape1 oshape2 : Option (List ℕ))
    (axes : Option (List ℤ)) (norm : FftNorm)
    (hwf : x.arr.wf)
    (hc : x.dtype.isComplex = true)
    (ho1 : oshape1 = none ∨ oshape1 = some x.arr.shape)
    (ho2 : oshape2 = none ∨ oshape2 = some x.arr.shape)
    (hshape : ∀ a s ax n, (E.fftn a s ax n).shape = a.shape)
    (hwfp : ∀ a s ax n, a.wf → (E.fftn a s ax n).wf)
    (hinv : ∀ a ax n, E.ifftn (E.fftn a none ax n) none ax n = a) :
    ifft E (fft E x oshape1 axes true norm) oshape2 axes true norm = x := by
  rw [fft_complex_centered E x oshape1 axes norm hc]
  rw [ifft_complex_centered E ⟨x.dtype, _fftc E x.arr oshape1 axes norm⟩
    oshape2 axes norm hc]
  rw [_ifftc_fftc E x.arr oshape1 oshape2 axes norm hwf ho1 ho2 hshape hwfp hinv]

/-- Witness for `c4_fft_ifft_roundtrip`: the identity engine on the concrete
complex64 array of shape `[2]` with rational payload `[1, 2]`. -/
theorem c4_fft_ifft_roundtrip_witness :
    (⟨Dtype.complex64, ⟨[2], [(1 : ℚ), 2]⟩⟩ : DArr ℚ).arr.wf ∧
      ifft idEngine
          (fft idEngine (⟨Dtype.complex64, ⟨[2], [(1 : ℚ), 2]⟩⟩ : DArr ℚ)
            none none true .std)
          none none true .std
        = ⟨Dtype.complex64, ⟨[2], [(1 : ℚ), 2]⟩⟩ :=
  ⟨rfl, c4_fft_ifft_roundtrip idEngine _ none none none .std rfl rfl
    (Or.inl rfl) (Or.inl rfl) (fun _ _ _ _ => rfl) (fun _ _ _ _ h => h)
    (fun _ _ _ => rfl)⟩

/-- C10 (confirmed): `fft` and `ifft` expose a `center` flag defaulting to
`True`; with `center = False` the centered resize and index-shift steps are
skipped entirely and the raw n-dimensional transform is applied with output
length parameter `s = oshape` over the given axes, while the promotion of
non-complex input to complex64 and the cast of the output back to the
promoted input's precision still apply. -/
theorem c10_uncentered {α : Type} [Zero α] (E : FFTEngine α) (x : DArr α)
    (oshape : Option (List ℕ)) (axes : Option (List ℤ)) (norm : FftNorm) :
    fft E x oshape axes = fft E x oshape axes true .std
    ∧ ifft E x oshape axes = ifft E x oshape axes true .std
    ∧ fft E x oshape axes false norm = fftUncenteredSpec E x oshape axes norm
    ∧ ifft E x oshape axes false norm = ifftUncenteredSpec E x oshape axes norm := by
  refine ⟨rfl, rfl, ?_, ?_⟩
  · by_cases hc : x.dtype.isComplex = true
    · by_cases hd : x.dtype = E.outDtype x.dtype
      · simp [fft, fftUncenteredSpec, hc, DArr.astype, ← hd]
      · simp [fft, fftUncenteredSpec, hc, DArr.astype, hd]
    · have h64 : Dtype.complex64.isComplex = true := rfl
      by_cases hd : Dtype.complex64 = E.outDtype Dtype.complex64
      · simp [fft, fftUncenteredSpec, hc, DArr.astype, h64, ← hd]
      · simp [fft, fftUncenteredSpec, hc, DArr.astype, h64, hd]
  · by_cases hc : x.dtype.isComplex = true
    · by_cases hd : x.dtype = E.outDtype x.dtype
      · simp [ifft, ifftUncenteredSpec, hc, DArr.astype, ← hd]
      · simp [ifft, ifftUncenteredSpec, hc, DArr.astype, hd]
    · have h64 : Dtype.complex64.isComplex = true := rfl
      by_cases hd : Dtype.complex64 = E.outDtype Dtype.complex64
      · simp [ifft, ifftUncenteredSpec, hc, DArr.astype, h64, ← hd]
      · simp [ifft, ifftUncenteredSpec, hc, DArr.astype, h64, hd]

/-! ### Shape lemmas for the pipelines -/

/-- Shape of `divArr`. -/
@[simp] theorem divArr_shape (x : Arr ℂ) (c : ℂ) : (divArr x c).shape = x.shape := rfl

/-- Shape of `smulArr`. -/
@[simp] theorem smulArr_shape (c : ℂ) (x : Arr ℂ) : (smulArr c x).shape = x.shape := rfl

/-- Shape of `resize` is the requested shape. -/
@[simp] theorem resize_shape {α : Type} [Zero α] (x : Arr α) (o : List ℕ) :
    (resize x o).shape = o := rfl

/-- Shape of `_scale_coord` is the coordinate array's shape. -/
@[simp] theorem scale_coord_shape (c : Arr ℚ) (s : List ℕ) (o : ℚ) :
    (_scale_coord c s o).shape = c.shape := rfl

/-- Shape of `mulAxis`. -/
@[simp] theorem mulAxis_shape (x : Arr ℂ) (a : ℕ) (w : ℕ → ℂ) :
    (mulAxis x a w).shape = x.shape := rfl

/-- Lemma: `_apodize` preserves the shape. -/
theorem _apodize_shape (x : Arr ℂ) (ndim : ℕ) (oversamp width : ℚ) (beta : ℂ) :
    (_apodize x ndim oversamp width beta).shape = x.shape := by
  rw [_apodize]
  generalize List.range ndim = l
  induction l generalizing x with
  | nil => rfl
  | cons k ks ih =>
      rw [List.foldl_cons, ih]
      rfl

/-- Shape of the centered forward transform: the requested output shape
(the input's shape when omitted), given a shape-preserving engine. -/
theorem _fftc_shape {α : Type} [Zero α] (E : FFTEngine α) (x : Arr α)
    (oshape : Option (List ℕ)) (axes : Option (List ℤ)) (norm : FftNorm)
    (h : ∀ a s ax n, (E.fftn a s ax n).shape = a.shape) :
    (_fftc E x oshape axes norm).shape = oshape.getD x.shape := by
  simp only [_fftc]
  show (E.fftn (ifftshift (resize x (oshape.getD x.shape))
      (normalizeAxes axes x.shape.length)) none _ norm).shape = oshape.getD x.shape
  rw [h]
  rfl

/-- Shape of the centered inverse transform. -/
theorem _ifftc_shape {α : Type} [Zero α] (E : FFTEngine α) (x : Arr α)
    (oshape : Option (List ℕ)) (axes : Option (List ℤ)) (norm : FftNorm)
    (h : ∀ a s ax n, (E.ifftn a s ax n).shape = a.shape) :
    (_ifftc E x oshape axes norm).shape = oshape.getD x.shape := by
  simp only [_ifftc]
  show (E.ifftn (ifftshift (resize x (oshape.getD x.shape))
      (normalizeAxes axes x.shape.length)) none _ norm).shape = oshape.getD x.shape
  rw [h]
  rfl

/-- The oversampled shape keeps the leading axes and the overall rank. -/
theorem sliceUpToNeg_oversamp (shape : List ℕ) (ndim : ℕ) (oversamp : ℚ)
    (h1 : 1 ≤ ndim) (h2 : ndim ≤ shape.length) :
    sliceUpToNeg (_get_oversamp_shape shape ndim oversamp) ndim
      = sliceUpToNeg shape ndim
    ∧ (_get_oversamp_shape shape ndim oversamp).length = shape.length := by
  have hne : ndim ≠ 0 := Nat.one_le_iff_ne_zero.mp h1
  have hA : (sliceUpToNeg shape ndim).length = shape.length - ndim := by
    rw [sliceUpToNeg, if_neg hne, List.length_take]
    exact Nat.min_eq_left (Nat.sub_le _ _)
  have hB : ((sliceFromNeg shape ndim).map
      (fun i : ℕ => (⌈oversamp * (i : ℚ)⌉).toNat)).length = ndim := by
    rw [List.length_map, sliceFromNeg, if_neg hne, List.length_drop]
    omega
  have hlen : (_get_oversamp_shape shape ndim oversamp).length = shape.length := by
    rw [_get_oversamp_shape, List.length_append, hA, hB]
    omega
  refine ⟨?_, hlen⟩
  rw [sliceUpToNeg, if_neg hne, hlen, _get_oversamp_shape, List.take_left' hA]

/-! ### Claim C5 -/

/-- C5 (confirmed): for `d = coord.shape[-1] ≥ 1` with at least `d` trailing
input axes, the output shape of `nufft` is `input.shape[:-d] ++
coord.shape[:-1]`, and the output shape of `nufft_adjoint` is the supplied
`oshape` — given the spec's shape contracts for the external engine
(shape-preserving raw transforms, gather shape `grid.shape[:-d] ++
coord.shape[:-1]`, scatter shape = requested grid shape). -/
theorem c5_shape_contract (E : FFTEngine ℂ) (I : InterpEngine)
    (input input2 : Arr ℂ) (coord : Arr ℚ) (oshape : List ℕ)
    (oversamp width : ℚ)
    (hnd : 1 ≤ coord.shape.getLastD 0)
    (hle : coord.shape.getLastD 0 ≤ input.shape.length)
    (hf : ∀ a s ax n, (E.fftn a s ax n).shape = a.shape)
    (hg : ∀ a s ax n, (E.ifftn a s ax n).shape = a.shape)
    (hinterp : ∀ g c k w b, (I.interpolate g c k w b).shape
        = sliceUpToNeg g.shape (c.shape.getLastD 0) ++ sliceUpToNeg c.shape 1)
    (hgrid : ∀ s c gs k w b, (I.gridding s c gs k w b).shape = gs) :
    (nufft E I input coord oversamp width).shape
        = sliceUpToNeg input.shape (coord.shape.getLastD 0)
          ++ sliceUpToNeg coord.shape 1
    ∧ (nufft_adjoint E I input2 coord oshape oversamp width).shape = oshape := by
  constructor
  · simp only [nufft]
    rw [divArr_shape, hinterp, scale_coord_shape]
    have hX : (fftArr E (resize (divArr
          (_apodize input (coord.shape.getLastD 0) oversamp width (betaVal width oversamp))
          ((Real.sqrt ((utilProd (sliceFromNeg input.shape (coord.shape.getLastD 0)) : ℕ) : ℝ) : ℝ) : ℂ))
          (_get_oversamp_shape input.shape (coord.shape.getLastD 0) oversamp))
          (negRange (coord.shape.getLastD 0))).shape
        = _get_oversamp_shape input.shape (coord.shape.getLastD 0) oversamp := by
      rw [fftArr]
      exact (_fftc_shape E _ none _ _ hf).trans rfl
    rw [hX, (sliceUpToNeg_oversamp input.shape (coord.shape.getLastD 0) oversamp hnd hle).1]
  · simp only [nufft_adjoint]
    rw [_apodize_shape, smulArr_shape, resize_shape]

/-- Witness for `c5_shape_contract` at concrete shapes: `input` of shape
`[2, 3]`, `coord` of shape `[5, 1]` (`d = 1`), `oshape = [7]`. -/
theorem c5_shape_contract_witness :
    (1 : ℕ) ≤ (⟨[5, 1], []⟩ : Arr ℚ).shape.getLastD 0 ∧
      (nufft idEngineC shapeInterpEngine ⟨[2, 3], []⟩ ⟨[5, 1], []⟩ (5/4) 4).shape
        = [2, 5] ∧
      (nufft_adjoint idEngineC shapeInterpEngine ⟨[2, 3], []⟩ ⟨[5, 1], []⟩ [7]
          (5/4) 4).shape = [7] := by
  have h := c5_shape_contract idEngineC shapeInterpEngine ⟨[2, 3], []⟩ ⟨[2, 3], []⟩
    ⟨[5, 1], []⟩ [7] (5/4) 4 (by decide) (by decide)
    (fun _ _ _ _ => rfl) (fun _ _ _ _ => rfl)
    (fun _ _ _ _ _ => rfl) (fun _ _ _ _ _ _ => rfl)
  exact ⟨by decide, h.1.trans (by decide), h.2⟩

/-! ### Claim C3 -/

/-- Entrywise meaning of the scalar multiplication `output *= c`. -/
theorem smulArr_getD (c : ℂ) (y : Arr ℂ) (n : ℕ) :
    (smulArr c y).data.getD n 0 = y.data.getD n 0 * c := by
  rcases lt_or_ge n y.data.length with h | h
  · rw [smulArr, List.getD_eq_getElem?_getD, List.getElem?_map,
      List.getD_eq_getElem?_getD, List.getElem?_eq_getElem h]
    rfl
  · rw [smulArr, List.getD_eq_getElem?_getD, List.getElem?_eq_none (by simpa using h),
      List.getD_eq_getElem?_getD, List.getElem?_eq_none h]
    simp

/-- C3 (confirmed): in `nufft_adjoint`, after the inverse centered transform
and the centered crop to `oshape`, the array is multiplied entrywise by the
scalar `prod(os_shape[-d:]) / sqrt(prod(oshape[-d:]))` — the whole trailing
product of the oversampled shape divided by the square root of the trailing
product of the target shape (`**` binds before `/` in line 177) — and this
multiplication happens before the final apodization step. -/
theorem c3_adjoint_scale (E : FFTEngine ℂ) (I : InterpEngine)
    (input : Arr ℂ) (coord : Arr ℚ) (oshape : List ℕ) (oversamp width : ℚ) :
    nufft_adjoint E I input coord oshape oversamp width
      = _apodize
          (smulArr
            (((utilProd (sliceFromNeg
                (_get_oversamp_shape oshape (coord.shape.getLastD 0) oversamp)
                (coord.shape.getLastD 0)) : ℕ) : ℂ)
              / ((Real.sqrt ((utilProd (sliceFromNeg oshape
                  (coord.shape.getLastD 0)) : ℕ) : ℝ) : ℝ) : ℂ))
            (resize
              (ifftArr E
                (divArr
                  (I.gridding input (_scale_coord coord oshape oversamp)
                    (_get_oversamp_shape oshape (coord.shape.getLastD 0) oversamp)
                    kaiserBessel width (betaVal width oversamp))
                  ((width : ℂ) ^ (coord.shape.getLastD 0)))
                (negRange (coord.shape.getLastD 0)))
              oshape))
          (coord.shape.getLastD 0) oversamp width (betaVal width oversamp)
    ∧ (((utilProd (sliceFromNeg
          (_get_oversamp_shape oshape (coord.shape.getLastD 0) oversamp)
          (coord.shape.getLastD 0)) : ℕ) : ℂ)
        / ((Real.sqrt ((utilProd (sliceFromNeg oshape
            (coord.shape.getLastD 0)) : ℕ) : ℝ) : ℝ) : ℂ))
      = (((utilProd (sliceFromNeg
            (_get_oversamp_shape oshape (coord.shape.getLastD 0) oversamp)
            (coord.shape.getLastD 0)) : ℕ)
          / Real.sqrt ((utilProd (sliceFromNeg oshape
            (coord.shape.getLastD 0)) : ℕ) : ℝ) : ℝ) : ℂ)
    ∧ ∀ (c : ℂ) (y : Arr ℂ) (n : ℕ),
        (smulArr c y).data.getD n 0 = y.data.getD n 0 * c := by
  refine ⟨rfl, ?_, smulArr_getD⟩
  push_cast
  rfl

/-! ### Claim C6: the apodization window -/

/-- Entry of a range-built list at an in-range position. -/
theorem getD_range_map (f : ℕ → ℂ) (p n : ℕ) (hn : n < p) :
    ((List.range p).map f).getD n 0 = f n := by
  rw [List.getD_eq_getElem?_getD, List.getElem?_map, List.getElem?_range hn]
  rfl

/-- Unrolling of the `_apodize` loop: after `m` iterations every entry is the
original entry times the product of the per-axis window factors accumulated
so far. -/
theorem _apodize_go (x : Arr ℂ) (ndim : ℕ) (oversamp width : ℚ) (beta : ℂ)
    (hwf : x.wf) (m : ℕ) :
    (List.range m).foldl (fun out k =>
        let a := out.shape.length - ndim + k
        let i := out.shape.getD a 0
        mulAxis out a (fun idx => apodEntry i oversamp width beta idx)) x
      = ⟨x.shape, (List.range x.shape.prod).map (fun n =>
          x.data.getD n 0 *
            (List.range m).foldl (fun acc k =>
              let a := x.shape.length - ndim + k
              acc * apodEntry (x.shape.getD a 0) oversamp width beta
                ((unflattenIdx x.shape n).getD a 0)) 1)⟩ := by
  have hwf' : x.data.length = x.shape.prod := hwf
  induction m with
  | zero =>
      simp only [List.range_zero, List.foldl_nil]
      show Arr.mk x.shape x.data = Arr.mk x.shape
        ((List.range x.shape.prod).map (fun n => x.data.getD n 0 * (1 : ℂ)))
      refine congrArg (Arr.mk x.shape) ?_
      have h1 : (List.range x.shape.prod).map (fun n => x.data.getD n 0 * (1 : ℂ))
          = (List.range x.shape.prod).map (fun n => x.data.getD n 0) := by
        simp
      rw [h1, ← hwf', range_map_getD]
  | succ m ih =>
      simp only [List.range_succ, List.foldl_append, List.foldl_cons, List.foldl_nil]
      rw [ih]
      show mulAxis
          (Arr.mk x.shape ((List.range x.shape.prod).map (fun n =>
            x.data.getD n 0 *
              (List.range m).foldl (fun acc k =>
                let a := x.shape.length - ndim + k
                acc * apodEntry (x.shape.getD a 0) oversamp width beta
                  ((unflattenIdx x.shape n).getD a 0)) 1)))
          (x.shape.length - ndim + m)
          (fun idx => apodEntry (x.shape.getD (x.shape.length - ndim + m) 0)
            oversamp width beta idx)
        = _
      rw [mulAxis]
      refine congrArg (Arr.mk x.shape) ?_
      apply List.map_congr_left
      intro n hn
      rw [List.mem_range] at hn
      rw [getD_range_map _ _ _ hn]
      rw [mul_assoc]

/-- C6 key fact (a): `_apodize` multiplies every entry of a well-formed array
by the product of the per-axis apodization windows over the trailing `ndim`
axes. -/
theorem _apodize_eq (x : Arr ℂ) (ndim : ℕ) (oversamp width : ℚ) (beta : ℂ)
    (hwf : x.wf) :
    _apodize x ndim oversamp width beta
      = ⟨x.shape, (List.range x.shape.prod).map (fun n =>
          x.data.getD n 0 * apodFactor x.shape ndim oversamp width beta
            (unflattenIdx x.shape n))⟩ :=
  _apodize_go x ndim oversamp width beta hwf ndim

/-- Auxiliary: `exp ((π / 2) * i) = i`. -/
theorem exp_pi_div_two_mul_I :
    Complex.exp (((Real.pi / 2 : ℝ) : ℂ) * Complex.I) = Complex.I := by
  rw [Complex.exp_mul_I, ← Complex.ofReal_cos, ← Complex.ofReal_sin,
    Real.cos_pi_div_two, Real.sin_pi_div_two]
  simp

/-- The complex radicand computed by `_apodize` for a real `beta` is the real
radicand, embedded. -/
theorem apodS_inner_eq (i : ℕ) (oversamp width : ℚ) (beta : ℝ) (idx : ℕ) :
    ((beta : ℂ) ^ 2 - ((Real.pi : ℂ) * (width : ℂ) * ((idx : ℂ) - ((i / 2 : ℕ) : ℂ))
        / (((⌈oversamp * (i : ℚ)⌉).toNat : ℕ) : ℂ)) ^ 2)
      = ((apodRadicand i oversamp width beta idx : ℝ) : ℂ) := by
  rw [apodRadicand]
  push_cast
  ring

/-- C6 key fact (b): for a real shape parameter and a non-negative radicand,
the window value computed in complex arithmetic is exactly the spec's real
formula `sqrt(radicand) / sinh(sqrt(radicand))`. -/
theorem apodEntry_real (i : ℕ) (oversamp width : ℚ) (beta : ℝ) (idx : ℕ)
    (h : 0 ≤ apodRadicand i oversamp width beta idx) :
    apodEntry i oversamp width ((beta : ℝ) : ℂ) idx
      = ((apodSpecEntry i oversamp width beta idx : ℝ) : ℂ) := by
  have hs : apodS i oversamp width ((beta : ℝ) : ℂ) idx
      = ((Real.sqrt (apodRadicand i oversamp width beta idx) : ℝ) : ℂ) := by
    rw [apodS, apodS_inner_eq]
    rw [show ((1 : ℂ) / 2) = (((1 : ℝ) / 2 : ℝ) : ℂ) by norm_num]
    rw [← Complex.ofReal_cpow h, Real.sqrt_eq_rpow]
  rw [apodEntry, hs, ← Complex.ofReal_sinh, ← Complex.ofReal_div]
  rfl

/-- C6 (confirmed): both `nufft` and `nufft_adjoint` apply apodization by
multiplying (never dividing) along each of the `d` trailing axes by the same
per-axis window, whose value at index `idx` of an axis of length `i`
(oversampled to `os_i = ceil(oversamp * i)`) is
`sqrt(beta^2 - (π width (idx - i//2) / os_i)^2) / sinh(same)`:
(a) `_apodize` multiplies every entry by the product of the per-axis window
factors; (b) the window factor is exactly the spec's formula for real `beta`;
(c) `nufft` applies `_apodize` to `input` as its first step, and
`nufft_adjoint` applies the identical `_apodize` as its final step. -/
theorem c6_apodization_window (E : FFTEngine ℂ) (I : InterpEngine)
    (x input : Arr ℂ) (coord : Arr ℚ) (oshape : List ℕ)
    (oversamp width : ℚ) (betaC : ℂ) (ndim : ℕ) (betaR : ℝ) (i idx : ℕ)
    (hwf : x.wf)
    (hrad : 0 ≤ apodRadicand i oversamp width betaR idx) :
    _apodize x ndim oversamp width betaC
      = ⟨x.shape, (List.range x.shape.prod).map (fun n =>
          x.data.getD n 0 * apodFactor x.shape ndim oversamp width betaC
            (unflattenIdx x.shape n))⟩
    ∧ apodEntry i oversamp width ((betaR : ℝ) : ℂ) idx
        = ((apodSpecEntry i oversamp width betaR idx : ℝ) : ℂ)
    ∧ nufft E I input coord oversamp width
        = divArr
            (I.interpolate
              (fftArr E
                (resize
                  (divArr
                    (_apodize input (coord.shape.getLastD 0) oversamp width
                      (betaVal width oversamp))
                    ((Real.sqrt ((utilProd (sliceFromNeg input.shape
                        (coord.shape.getLastD 0)) : ℕ) : ℝ) : ℝ) : ℂ))
                  (_get_oversamp_shape input.shape (coord.shape.getLastD 0) oversamp))
                (negRange (coord.shape.getLastD 0)))
              (_scale_coord coord input.shape oversamp) kaiserBessel width
              (betaVal width oversamp))
            ((width : ℂ) ^ (coord.shape.getLastD 0))
    ∧ nufft_adjoint E I input coord oshape oversamp width
        = _apodize
            (smulArr
              (((utilProd (sliceFromNeg
                  (_get_oversamp_shape oshape (coord.shape.getLastD 0) oversamp)
                  (coord.shape.getLastD 0)) : ℕ) : ℂ)
                / ((Real.sqrt ((utilProd (sliceFromNeg oshape
                    (coord.shape.getLastD 0)) : ℕ) : ℝ) : ℝ) : ℂ))
              (resize
                (ifftArr E
                  (divArr
                    (I.gridding input (_scale_coord coord oshape oversamp)
                      (_get_oversamp_shape oshape (coord.shape.getLastD 0) oversamp)
                      kaiserBessel width (betaVal width oversamp))
                    ((width : ℂ) ^ (coord.shape.getLastD 0)))
                  (negRange (coord.shape.getLastD 0)))
                oshape))
            (coord.shape.getLastD 0) oversamp width (betaVal width oversamp) :=
  ⟨_apodize_eq x ndim oversamp width betaC hwf,
   apodEntry_real i oversamp width betaR idx hrad, rfl, rfl⟩

/-- Witness for `c6_apodization_window` at concrete parameters (`beta = 1`,
an axis of length 1, index 0, radicand `1 ≥ 0`). -/
theorem c6_apodization_window_witness :
    (0 : ℝ) ≤ apodRadicand 1 1 1 1 0 ∧
      apodEntry 1 1 1 ((1 : ℝ) : ℂ) 0 = ((apodSpecEntry 1 1 1 1 0 : ℝ) : ℂ) := by
  have hr : (0 : ℝ) ≤ apodRadicand 1 1 1 1 0 := by
    norm_num [apodRadicand]
  have h := c6_apodization_window idEngineC shapeInterpEngine
    ⟨[1], [0]⟩ ⟨[1], [0]⟩ ⟨[1], []⟩ [1] 1 1 0 1 1 1 0 rfl hr
  exact ⟨hr, h.2.1⟩

/-! ### Claim C9: the apodization radicand edge cases -/

/-- C9 (counterexample): at `beta = 0` on an axis of length 1 the window
value is `0 / sinh 0 = 0 / 0` — the denominator is exactly zero, so the
float evaluation yields NaN, not a finite complex value (no exception is
raised, but the claimed finiteness fails). -/
theorem c9_apodize_counterexample :
    apodS 1 1 1 0 0 = 0 ∧ apodEntryNonFinite 1 1 1 0 0 := by
  have hz : ((0 : ℂ) ^ 2 - ((Real.pi : ℂ) * ((1 : ℚ) : ℂ)
      * (((0 : ℕ) : ℂ) - ((1 / 2 : ℕ) : ℂ))
      / (((⌈(1 : ℚ) * ((1 : ℕ) : ℚ)⌉).toNat : ℕ) : ℂ)) ^ 2) = 0 := by
    norm_num
  have hs : apodS 1 1 1 0 0 = 0 := by
    rw [apodS]
    rw [show ((0 : ℂ) ^ 2 - ((Real.pi : ℂ) * ((1 : ℚ) : ℂ)
        * (((0 : ℕ) : ℂ) - (((1 : ℕ) / 2 : ℕ) : ℂ))
        / (((⌈(1 : ℚ) * ((1 : ℕ) : ℚ)⌉).toNat : ℕ) : ℂ)) ^ 2) = 0 from hz]
    exact Complex.zero_cpow (by norm_num)
  exact ⟨hs, by rw [apodEntryNonFinite, hs, Complex.sinh_zero]⟩

/-- C9 (amended): `_apodize` raises no exception for any parameters; on
complex data a negative real radicand `r` is evaluated in complex arithmetic
and yields the principal root `sqrt(-r) * i`; the resulting window value is a
complex number, finite unless `sin (sqrt (-r)) = 0`, where the float code
divides by an exact zero (NaN/Inf), as at the counterexample. -/
theorem c9_apodize_complex (i : ℕ) (oversamp width : ℚ) (beta : ℝ) (idx : ℕ)
    (h : apodRadicand i oversamp width beta idx < 0) :
    apodS i oversamp width ((beta : ℝ) : ℂ) idx
      = ((Real.sqrt (-(apodRadicand i oversamp width beta idx)) : ℝ) : ℂ)
          * Complex.I
    ∧ (apodEntryNonFinite i oversamp width ((beta : ℝ) : ℂ) idx
        ↔ Real.sin (Real.sqrt (-(apodRadicand i oversamp width beta idx))) = 0) := by
  have hs : apodS i oversamp width ((beta : ℝ) : ℂ) idx
      = ((Real.sqrt (-(apodRadicand i oversamp width beta idx)) : ℝ) : ℂ)
          * Complex.I := by
    rw [apodS, apodS_inner_eq]
    rw [Complex.ofReal_cpow_of_nonpos (le_of_lt h)]
    have h1 : (-((apodRadicand i oversamp width beta idx : ℝ) : ℂ))
        = (((-(apodRadicand i oversamp width beta idx)) : ℝ) : ℂ) := by
      push_cast
      ring
    rw [h1]
    have h2 : ((((-(apodRadicand i oversamp width beta idx)) : ℝ) : ℂ) ^ ((1 : ℂ) / 2))
        = ((Real.sqrt (-(apodRadicand i oversamp width beta idx)) : ℝ) : ℂ) := by
      rw [show ((1 : ℂ) / 2) = (((1 : ℝ) / 2 : ℝ) : ℂ) by norm_num]
      rw [← Complex.ofReal_cpow (by linarith), Real.sqrt_eq_rpow]
    rw [h2]
    have h3 : ((Real.pi : ℂ) * Complex.I * ((1 : ℂ) / 2))
        = (((Real.pi / 2 : ℝ) : ℂ) * Complex.I) := by
      push_cast
      ring
    rw [h3, exp_pi_div_two_mul_I]
  refine ⟨hs, ?_⟩
  rw [apodEntryNonFinite, hs, Complex.sinh_mul_I, ← Complex.ofReal_sin]
  constructor
  · intro hzero
    rcases mul_eq_zero.mp hzero with h0 | h0
    · exact_mod_cast h0
    · exact absurd h0 Complex.I_ne_zero
  · intro hzero
    rw [hzero]
    simp

/-- Witness for `c9_apodize_complex` at `beta = 0`, `width = 1`, axis length
2, index 0 (radicand `-(π/2)^2 < 0`). -/
theorem c9_apodize_complex_witness :
    apodRadicand 2 1 1 0 0 < 0 ∧
      (apodEntryNonFinite 2 1 1 ((0 : ℝ) : ℂ) 0
        ↔ Real.sin (Real.sqrt (-(apodRadicand 2 1 1 0 0))) = 0) := by
  have hr : apodRadicand 2 1 1 0 0 < 0 := by
    rw [apodRadicand]
    norm_num
    rw [show ((Int.toNat (2 : ℤ) : ℕ) : ℝ) = 2 from rfl, neg_div]
    exact pow_two_pos_of_ne_zero (neg_ne_zero.mpr (ne_of_gt (by positivity)))
  have h := c9_apodize_complex 2 1 1 0 0 hr
  exact ⟨hr, h.2⟩

/-! ### Claim C7: purity (heap model) -/

/-- Extension is reflexive. -/
theorem Heap.extends_refl {α : Type} (h : Heap α) : h.Extends h :=
  ⟨le_refl _, fun _ _ => rfl⟩

/-- Extension is transitive. -/
theorem Heap.extends_trans {α : Type} {h h' h'' : Heap α}
    (h1 : h.Extends h') (h2 : h'.Extends h'') : h.Extends h'' :=
  ⟨le_trans h1.1 h2.1, fun k hk => by
    rw [h2.2 k (lt_of_lt_of_le hk h1.1), h1.2 k hk]⟩

/-- Allocation extends the heap, returns the previously-free reference, and
stores the given object there. -/
theorem Heap.alloc_spec {α : Type} (h : Heap α) (v : Arr α) :
    h.Extends (h.alloc v).1 ∧ (h.alloc v).2 = h.next
      ∧ (h.alloc v).1.next = h.next + 1
      ∧ (h.alloc v).1.mem (h.alloc v).2 = v := by
  refine ⟨⟨Nat.le_succ _, fun k hk => ?_⟩, rfl, rfl, ?_⟩
  · show (if k = h.next then v else h.mem k) = h.mem k
    rw [if_neg (Nat.ne_of_lt hk)]
  · show (if h.next = h.next then v else h.mem h.next) = v
    rw [if_pos rfl]

/-- A heap-level operation extends the heap, returns a fresh reference to the
new object, and stores exactly the pure function of the argument object. -/
theorem heapOp_spec {α : Type} (f : Arr α → Arr α) (h : Heap α) (r : ℕ) :
    h.Extends (heapOp f h r).1
      ∧ (heapOp f h r).2 = h.next
      ∧ (heapOp f h r).1.next = h.next + 1
      ∧ (heapOp f h r).1.mem (heapOp f h r).2 = f (h.mem r) :=
  Heap.alloc_spec h (f (h.mem r))

/-- Chaining step: a heap op applied after any extension of a base heap still
extends the base heap, its result is allocated and fresh with respect to the
base heap, and it stores the pure function of the previous value. -/
theorem heapOp_chain {α : Type} (f : Arr α → Arr α) {h0 h : Heap α} {r : ℕ}
    {v : Arr α} (he : h0.Extends h) (hr : r < h.next) (hv : h.mem r = v) :
    h0.Extends (heapOp f h r).1
      ∧ (heapOp f h r).2 < (heapOp f h r).1.next
      ∧ h0.next ≤ (heapOp f h r).2
      ∧ (heapOp f h r).1.mem (heapOp f h r).2 = f v := by
  obtain ⟨e, n2, n1, val⟩ := heapOp_spec f h r
  refine ⟨Heap.extends_trans he e, ?_, ?_, by rw [val, hv]⟩
  · rw [n2, n1]
    omega
  · rw [n2]
    exact he.1

/-- A fold of heap-level operations extends the heap, keeps the running
reference allocated (either untouched or freshly allocated), and computes
the fold of the pure functions. -/
theorem heapFold_spec (l : List ℕ) (F : ℕ → Arr ℂ → Arr ℂ) (h : Heap ℂ)
    (r : ℕ) (hr : r < h.next) :
    h.Extends (l.foldl (fun p k => heapOp (F k) p.1 p.2) (h, r)).1
      ∧ (l.foldl (fun p k => heapOp (F k) p.1 p.2) (h, r)).2
          < (l.foldl (fun p k => heapOp (F k) p.1 p.2) (h, r)).1.next
      ∧ ((l.foldl (fun p k => heapOp (F k) p.1 p.2) (h, r)).2 = r
          ∨ h.next ≤ (l.foldl (fun p k => heapOp (F k) p.1 p.2) (h, r)).2)
      ∧ (l.foldl (fun p k => heapOp (F k) p.1 p.2) (h, r)).1.mem
            (l.foldl (fun p k => heapOp (F k) p.1 p.2) (h, r)).2
          = l.foldl (fun v k => F k v) (h.mem r) := by
  induction l generalizing h r with
  | nil => exact ⟨Heap.extends_refl h, hr, Or.inl rfl, rfl⟩
  | cons k ks ih =>
      obtain ⟨he, hnext2, hnext1, hval⟩ := heapOp_spec (F k) h r
      have hr' : (heapOp (F k) h r).2 < (heapOp (F k) h r).1.next := by
        rw [hnext2, hnext1]
        omega
      obtain ⟨ihe, ihr, ihref, ihval⟩ := ih (heapOp (F k) h r).1 (heapOp (F k) h r).2 hr'
      refine ⟨Heap.extends_trans he ihe, ihr, ?_,
        ihval.trans (congrArg (fun z => ks.foldl (fun v j => F j v) z) hval)⟩
      right
      rcases ihref with hh | hh
      · exact le_of_eq (hh.trans hnext2).symm
      · exact le_trans (le_trans (Nat.le_succ h.next) (le_of_eq hnext1.symm)) hh

/-- Lemma: `apodizeHeap` extends the heap, returns an allocated reference (the
argument reference itself when `ndim = 0`, a fresh one otherwise), and
stores the pure `_apodize` of the argument object. -/
theorem apodizeHeap_spec (ndim : ℕ) (oversamp width : ℚ) (beta : ℂ)
    (h : Heap ℂ) (r : ℕ) (hr : r < h.next) :
    h.Extends (apodizeHeap ndim oversamp width beta h r).1
      ∧ (apodizeHeap ndim oversamp width beta h r).2
          < (apodizeHeap ndim oversamp width beta h r).1.next
      ∧ ((apodizeHeap ndim oversamp width beta h r).2 = r
          ∨ h.next ≤ (apodizeHeap ndim oversamp width beta h r).2)
      ∧ (apodizeHeap ndim oversamp width beta h r).1.mem
            (apodizeHeap ndim oversamp width beta h r).2
          = _apodize (h.mem r) ndim oversamp width beta :=
  heapFold_spec (List.range ndim)
    (fun k out =>
      let a := out.shape.length - ndim + k
      let i := out.shape.getD a 0
      mulAxis out a (fun idx => apodEntry i oversamp width beta idx)) h r hr

/-- Chaining step for `apodizeHeap` (used as the final statement of the
adjoint pipeline). -/
theorem apodizeHeap_chain (ndim : ℕ) (oversamp width : ℚ) (beta : ℂ)
    {h0 h : Heap ℂ} {r : ℕ} {v : Arr ℂ}
    (he : h0.Extends h) (hr : r < h.next) (hv : h.mem r = v) :
    h0.Extends (apodizeHeap ndim oversamp width beta h r).1
      ∧ (apodizeHeap ndim oversamp width beta h r).2
          < (apodizeHeap ndim oversamp width beta h r).1.next
      ∧ ((apodizeHeap ndim oversamp width beta h r).2 = r
          ∨ h.next ≤ (apodizeHeap ndim oversamp width beta h r).2)
      ∧ (apodizeHeap ndim oversamp width beta h r).1.mem
            (apodizeHeap ndim oversamp width beta h r).2
          = _apodize v ndim oversamp width beta := by
  obtain ⟨e, hlt, href, hval⟩ := apodizeHeap_spec ndim oversamp width beta h r hr
  exact ⟨Heap.extends_trans he e, hlt, href, by rw [hval, hv]⟩

/-- C7 (confirmed): `nufft` and `nufft_adjoint` are pure — at the heap level
every statement allocates a fresh object (jnp arrays are immutable; `*=` and
`/=` on them rebind the local name to a new object), so a call leaves every
caller-visible array object (in particular `input` and `coord`) unchanged,
returns a reference that did not exist before the call, and the returned
object holds exactly the value of the pure pipeline. -/
theorem c7_purity (E : FFTEngine ℂ) (I : InterpEngine)
    (hc : Heap ℂ) (hq : Heap ℚ) (rin rc : ℕ) (oshape : List ℕ)
    (oversamp width : ℚ) (hrin : rin < hc.next) (hrc : rc < hq.next) :
    ((∀ k, k < hc.next →
        (nufftHeap E I hc hq rin rc oversamp width).1.mem k = hc.mem k)
      ∧ (∀ k, k < hq.next →
          (nufftHeap E I hc hq rin rc oversamp width).2.1.mem k = hq.mem k)
      ∧ hc.next ≤ (nufftHeap E I hc hq rin rc oversamp width).2.2
      ∧ (nufftHeap E I hc hq rin rc oversamp width).1.mem
            (nufftHeap E I hc hq rin rc oversamp width).2.2
          = nufft E I (hc.mem rin) (hq.mem rc) oversamp width)
    ∧ ((∀ k, k < hc.next →
        (nufftAdjointHeap E I hc hq rin rc oshape oversamp width).1.mem k = hc.mem k)
      ∧ (∀ k, k < hq.next →
          (nufftAdjointHeap E I hc hq rin rc oshape oversamp width).2.1.mem k = hq.mem k)
      ∧ hc.next ≤ (nufftAdjointHeap E I hc hq rin rc oshape oversamp width).2.2
      ∧ (nufftAdjointHeap E I hc hq rin rc oshape oversamp width).1.mem
            (nufftAdjointHeap E I hc hq rin rc oshape oversamp width).2.2
          = nufft_adjoint E I (hc.mem rin) (hq.mem rc) oshape oversamp width) := by
  constructor
  · obtain ⟨e1, r1, _, v1⟩ := apodizeHeap_spec
      ((hq.mem rc).shape.getLastD 0) oversamp width (betaVal width oversamp)
      hc rin hrin
    obtain ⟨e2, r2, b2, v2⟩ := heapOp_chain
      (fun v => divArr v ((Real.sqrt ((utilProd (sliceFromNeg (hc.mem rin).shape
        ((hq.mem rc).shape.getLastD 0)) : ℕ) : ℝ) : ℝ) : ℂ)) e1 r1 v1
    obtain ⟨e3, r3, b3, v3⟩ := heapOp_chain
      (fun v => resize v (_get_oversamp_shape (hc.mem rin).shape
        ((hq.mem rc).shape.getLastD 0) oversamp)) e2 r2 v2
    obtain ⟨e4, r4, b4, v4⟩ := heapOp_chain
      (fun v => fftArr E v (negRange ((hq.mem rc).shape.getLastD 0))) e3 r3 v3
    obtain ⟨e5, r5, b5, v5⟩ := heapOp_chain
      (fun v => I.interpolate v
        ((hq.alloc (_scale_coord (hq.mem rc) (hc.mem rin).shape oversamp)).1.mem
          (hq.alloc (_scale_coord (hq.mem rc) (hc.mem rin).shape oversamp)).2)
        kaiserBessel width (betaVal width oversamp)) e4 r4 v4
    obtain ⟨e6, r6, b6, v6⟩ := heapOp_chain
      (fun v => divArr v ((width : ℂ) ^ ((hq.mem rc).shape.getLastD 0))) e5 r5 v5
    conv at v6 =>
      rhs
      rw [(Heap.alloc_spec hq
        (_scale_coord (hq.mem rc) (hc.mem rin).shape oversamp)).2.2.2]
    exact ⟨e6.2,
      (Heap.alloc_spec hq (_scale_coord (hq.mem rc) (hc.mem rin).shape oversamp)).1.2,
      b6, v6⟩
  · obtain ⟨e1, r1, b1, v1⟩ := heapOp_chain
      (fun v => I.gridding v
        ((hq.alloc (_scale_coord (hq.mem rc) oshape oversamp)).1.mem
          (hq.alloc (_scale_coord (hq.mem rc) oshape oversamp)).2)
        (_get_oversamp_shape oshape ((hq.mem rc).shape.getLastD 0) oversamp)
        kaiserBessel width (betaVal width oversamp))
      (Heap.extends_refl hc) hrin rfl
    obtain ⟨e2, r2, b2, v2⟩ := heapOp_chain
      (fun v => divArr v ((width : ℂ) ^ ((hq.mem rc).shape.getLastD 0))) e1 r1 v1
    obtain ⟨e3, r3, b3, v3⟩ := heapOp_chain
      (fun v => ifftArr E v (negRange ((hq.mem rc).shape.getLastD 0))) e2 r2 v2
    obtain ⟨e4, r4, b4, v4⟩ := heapOp_chain
      (fun v => resize v oshape) e3 r3 v3
    obtain ⟨e5, r5, b5, v5⟩ := heapOp_chain
      (fun v => smulArr
        (((utilProd (sliceFromNeg (_get_oversamp_shape oshape
            ((hq.mem rc).shape.getLastD 0) oversamp)
            ((hq.mem rc).shape.getLastD 0)) : ℕ) : ℂ)
          / ((Real.sqrt ((utilProd (sliceFromNeg oshape
              ((hq.mem rc).shape.getLastD 0)) : ℕ) : ℝ) : ℝ) : ℂ)) v) e4 r4 v4
    obtain ⟨e6, r6, d6, v6⟩ := apodizeHeap_chain
      ((hq.mem rc).shape.getLastD 0) oversamp width (betaVal width oversamp)
      e5 r5 v5
    conv at v6 =>
      rhs
      rw [(Heap.alloc_spec hq (_scale_coord (hq.mem rc) oshape oversamp)).2.2.2]
    refine ⟨e6.2,
      (Heap.alloc_spec hq (_scale_coord (hq.mem rc) oshape oversamp)).1.2,
      ?_, v6⟩
    rcases d6 with hh | hh
    · exact le_of_le_of_eq b5 hh.symm
    · exact le_trans e5.1 hh

/-- Witness for `c7_purity` on one-object heaps: after `nufft`, the caller's
array object (reference 0) is unchanged. -/
theorem c7_purity_witness :
    (0 : ℕ) < (⟨1, fun _ => ⟨[1], [0]⟩⟩ : Heap ℂ).next ∧
      ∀ k, k < (⟨1, fun _ => ⟨[1], [0]⟩⟩ : Heap ℂ).next →
        (nufftHeap idEngineC shapeInterpEngine ⟨1, fun _ => ⟨[1], [0]⟩⟩
            ⟨1, fun _ => ⟨[1, 1], [0]⟩⟩ 0 0 (5/4) 4).1.mem k
          = (⟨1, fun _ => (⟨[1], [0]⟩ : Arr ℂ)⟩ : Heap ℂ).mem k := by
  have h := c7_purity idEngineC shapeInterpEngine ⟨1, fun _ => ⟨[1], [0]⟩⟩
    ⟨1, fun _ => ⟨[1, 1], [0]⟩⟩ 0 0 [1] (5/4) 4 (by decide) (by decide)
  exact ⟨by decide, h.1.1⟩

end ScoreInv
